import Mathlib

/-!
Shallow embedding of the biexponential (Logicle-style) transform engine from
`src/app/bi-exponential.ts`.  JavaScript numbers are modelled as real numbers;
the iterative root solver is modelled with explicit fuel (the source's loop
bound), and fallible operations return `Option`/`Except`.
-/

/-- Enumeration of scale kinds, from the `ScaleType` enum in the source. -/
inductive ScaleType where
  | Linear
  | Log
  | Biexponential
  | Band
  | UNKNOWN
deriving DecidableEq

/-- The state of a `BiexponentialTranslator` object: one field per TS instance
field (the constants `LN_10 = ln 10`, `_EPSILON = 1e-12` and `_M`'s initial
value `4.5` appear as literals in the operations, as in the source). -/
structure Translator where
  _a : ℝ
  _b : ℝ
  _c : ℝ
  _d : ℝ
  _f : ℝ
  _x1 : ℝ
  _W : ℝ
  _xTaylor : ℝ
  _taylor : List ℝ
  _bins : ℕ
  _lookup : List ℝ
  _rValue : ℝ
  _resolution : ℝ
  _T : ℝ
  _M : ℝ
  scale : ScaleType
  min : ℝ
  max : ℝ

/-! ### The root solver `solve(b, w)`

`solve` finds a root of `f(d) = 2 (ln d - ln b) + w (d + b)` by a safeguarded
Newton/bisection iteration.  The TS `for (let i = 1; i < 20; ++i)` loop body
runs at most 19 times; running out of fuel models the thrown convergence
error.  The TS variable `last_f` starts as `NaN` (which compares unequal to
everything), modelled as `Option ℝ` starting at `none`. -/

/-- Mutable loop state of `solve`. -/
structure SolveState where
  dLo : ℝ
  dHi : ℝ
  d : ℝ
  lastDelta : ℝ
  f : ℝ
  lastF : Option ℝ

/-- The constant part `f_b = -2 ln b + w b` of the solver's objective. -/
noncomputable def fB (b w : ℝ) : ℝ := -2 * Real.log b + w * b

/-- Tail of a solver iteration, shared by the bisection and Newton branches:
precision check, objective re-evaluation, stall check, bracket update. -/
noncomputable def solveCont (w fb : ℝ) (s : SolveState) (delta d' : ℝ) :
    SolveState ⊕ ℝ :=
  if |delta| < 1e-12 then Sum.inr d'
  else
    let f' := 2 * Real.log d' + w * d' + fb
    if f' = 0 ∨ s.lastF = some f' then Sum.inr d'
    else Sum.inl
      { dLo := if f' < 0 then d' else s.dLo
        dHi := if f' < 0 then s.dHi else d'
        d := d'
        lastDelta := delta
        f := f'
        lastF := some f' }

/-- One iteration of the solver loop body: either an early return (`Sum.inr`)
with the current estimate, or the updated state (`Sum.inl`). -/
noncomputable def solveStep (w fb : ℝ) (s : SolveState) : SolveState ⊕ ℝ :=
  let df := 2 / s.d + w
  if ((s.d - s.dHi) * df - s.f) * ((s.d - s.dLo) * df - s.f) ≥ 0 ∨
      |1.9 * s.f| > |s.lastDelta * df| then
    let delta := (s.dHi - s.dLo) / 2
    let d' := s.dLo + delta
    if d' = s.dLo then Sum.inr d' else solveCont w fb s delta d'
  else
    let delta := s.f / df
    let d' := s.d - delta
    if d' = s.d then Sum.inr d' else solveCont w fb s delta d'

/-- The solver loop with explicit fuel; exhausting the fuel models the
`"exceeded maximum iterations in solve()"` exception. -/
noncomputable def solveLoop (w fb : ℝ) : ℕ → SolveState → Except Unit ℝ
  | 0, _ => Except.error ()
  | n + 1, s =>
    match solveStep w fb s with
    | Sum.inr d => Except.ok d
    | Sum.inl s' => solveLoop w fb n s'

/-- Initial solver state: bracket `[0, b]`, first estimate by bisection. -/
noncomputable def initState (b w : ℝ) : SolveState :=
  let d0 := (0 + b) / 2
  { dLo := 0
    dHi := b
    d := d0
    lastDelta := b - 0
    f := 2 * Real.log d0 + w * d0 + fB b w
    lastF := none }

/-- `solve(b, w)` from the source: returns `b` immediately when `w = 0`,
otherwise runs at most 19 loop iterations and errors on fuel exhaustion. -/
noncomputable def solve (b w : ℝ) : Except Unit ℝ :=
  if w = 0 then Except.ok b
  else solveLoop w (fB b w) 19 (initState b w)

/-- Iterating the solver's step function, with early returns absorbing. -/
noncomputable def runSteps (w fb : ℝ) : ℕ → SolveState ⊕ ℝ → SolveState ⊕ ℝ
  | 0, x => x
  | n + 1, x =>
    runSteps w fb n
      (match x with
       | Sum.inl s => solveStep w fb s
       | Sum.inr d => Sum.inr d)

/-! ### Closed-form coefficients (constructor lines computing `c_a`, `mf_a`,
`a`, `c`, `f`). -/

/-- `c_a = exp(x0 (b + d))`. -/
noncomputable def c_a (x0 b d : ℝ) : ℝ := Real.exp (x0 * (b + d))

/-- `mf_a = exp(b x1) - c_a / exp(d x1)`. -/
noncomputable def mf_a (x0 x1 b d : ℝ) : ℝ :=
  Real.exp (b * x1) - c_a x0 b d / Real.exp (d * x1)

/-- The denominator `(exp b - mf_a) - c_a / exp d` in the definition of `a`. -/
noncomputable def denomA (x0 x1 b d : ℝ) : ℝ :=
  (Real.exp b - mf_a x0 x1 b d) - c_a x0 b d / Real.exp d

/-- `a = T / ((exp b - mf_a) - c_a / exp d)`. -/
noncomputable def coefA (T x0 x1 b d : ℝ) : ℝ := T / denomA x0 x1 b d

/-- `c = c_a * a`. -/
noncomputable def coefC (T x0 x1 b d : ℝ) : ℝ := c_a x0 b d * coefA T x0 x1 b d

/-- `f = -mf_a * a`. -/
noncomputable def coefF (T x0 x1 b d : ℝ) : ℝ :=
  -(mf_a x0 x1 b d) * coefA T x0 x1 b d

/-! ### Taylor coefficients -/

/-- Running value of `posCoef` after iteration `i` of the Taylor loop
(`posCoef` starts at `a exp(b x1)` and is multiplied by `b / (i + 1)`). -/
noncomputable def taylorPos (a b x1 : ℝ) : ℕ → ℝ
  | 0 => a * Real.exp (b * x1) * (b / 1)
  | i + 1 => taylorPos a b x1 i * (b / (i + 2))

/-- Running value of `negCoef` after iteration `i` of the Taylor loop
(`negCoef` starts at `-c / exp(d x1)` and is multiplied by `-d / (i + 1)`). -/
noncomputable def taylorNeg (c d x1 : ℝ) : ℕ → ℝ
  | 0 => -c / Real.exp (d * x1) * (-d / 1)
  | i + 1 => taylorNeg c d x1 i * (-d / (i + 2))

/-- Entry `i` of the Taylor table: `posCoef + negCoef`, with entry 1 forced to
zero afterwards (`this._taylor[1] = 0`). -/
noncomputable def taylorCoef (a b c d x1 : ℝ) (i : ℕ) : ℝ :=
  if i = 1 then 0 else taylorPos a b x1 i + taylorNeg c d x1 i

/-- The 16-entry Taylor coefficient table built by the constructor. -/
noncomputable def taylorList (a b c d x1 : ℝ) : List ℝ :=
  (List.range 16).map (taylorCoef a b c d x1)

/-! ### Evaluation operations -/

/-- `seriesBiexponential`: Horner evaluation of the Taylor polynomial in
`x = scale - x1`, from the top coefficient down to index 2, then folding in
coefficient 0 (index 1 is skipped: it is identically zero). -/
noncomputable def seriesBiexponential (t : Translator) (scale : ℝ) : ℝ :=
  let x := scale - t._x1
  let n := t._taylor.length
  let sum := (List.range (n - 3)).foldl
    (fun s k => (s + t._taylor.getD (n - 2 - k) 0) * x)
    (t._taylor.getD (n - 1) 0 * x)
  (sum * x + t._taylor.getD 0 0) * x

/-- The un-reflected biexponential: Taylor series below `xTaylor`, closed form
`a exp(b s) + f - c / exp(d s)` at or above it. -/
noncomputable def biexpCore (t : Translator) (s : ℝ) : ℝ :=
  if s < t._xTaylor then seriesBiexponential t s
  else (t._a * Real.exp (t._b * s) + t._f) - t._c / Real.exp (t._d * s)

/-- `inverse(scale)`: reflects scale values below `x1` about `x1` and negates
the result; otherwise evaluates the biexponential directly. -/
noncomputable def inverse (t : Translator) (scale : ℝ) : ℝ :=
  if scale < t._x1 then -biexpCore t (2 * t._x1 - scale)
  else biexpCore t scale

/-! ### Constructor -/

/-- Effective resolution parameter: `rValue < 0 ? |rValue| : 0.001`. -/
noncomputable def effR (rValue : ℝ) : ℝ := if rValue < 0 then |rValue| else 0.001

/-- Raw decade width `W = (M - log10(T / |rValue|)) / 2` with `M = 4.5`. -/
noncomputable def rawW (rv T : ℝ) : ℝ := (4.5 - Real.logb 10 (T / |rv|)) / 2

/-- `W` clamped at zero. -/
noncomputable def clampedW (rv T : ℝ) : ℝ :=
  if rawW rv T < 0 then 0 else rawW rv T

/-- Normalized width `w = W / M`. -/
noncomputable def wParam (rv T : ℝ) : ℝ := clampedW rv T / 4.5

/-- Constructor state before the lookup table is filled: coefficients and
Taylor table derived from the solver's output `d`. -/
noncomputable def mkBase (lm rv d : ℝ) : Translator :=
  let w := wParam rv lm
  let x1 := w
  let x0 := 2 * w
  let b := 4.5 * Real.log 10
  let a := coefA lm x0 x1 b d
  let c := coefC lm x0 x1 b d
  let f := coefF lm x0 x1 b d
  { _a := a, _b := b, _c := c, _d := d, _f := f
    _x1 := x1, _W := clampedW rv lm, _xTaylor := x1 + w / 4
    _taylor := taylorList a b c d x1
    _bins := 1024, _lookup := []
    _rValue := rv, _resolution := 4.5 / 1024, _T := lm, _M := 4.5
    scale := ScaleType.Biexponential, min := 0, max := 0 }

/-- The 1025-entry lookup table: the inverse transform sampled at `i / 1024`. -/
noncomputable def mkLookup (lm rv d : ℝ) : List ℝ :=
  List.ofFn (fun i : Fin 1025 => inverse (mkBase lm rv d) ((i.val : ℝ) / 1024))

/-- Constructor body once the solver has produced `d`: fills the lookup table
and records the linear range when `rValue < 0`. -/
noncomputable def mkFromD (rValue lm rv d : ℝ) : Translator :=
  { mkBase lm rv d with
    _lookup := mkLookup lm rv d
    max := if rValue < 0 then lm else 0
    min := if rValue < 0 then (mkLookup lm rv d).getD 0 0 else 0 }

/-- `new BiexponentialTranslator(rValue, linearMax)`: `none` models the
constructor aborting because `solve` threw. -/
noncomputable def mkTranslator (rValue lm : ℝ) : Option Translator :=
  match solve (4.5 * Real.log 10) (wParam (effR rValue) lm) with
  | Except.error _ => none
  | Except.ok d => some (mkFromD rValue lm (effR rValue) d)

/-! ### Table operations -/

/-- The linear scan `for (i = 0; i < lookup.length - 1; i++)` searching the
first `i` with `lookup[i] <= v < lookup[i+1]`; `none` models `index == -1`. -/
noncomputable def findBracketAux (L : List ℝ) (v : ℝ) : ℕ → ℕ → Option ℕ
  | 0, _ => none
  | fuel + 1, i =>
    if L.getD i 0 ≤ v ∧ v < L.getD (i + 1) 0 then some i
    else findBracketAux L v fuel (i + 1)

/-- Entry point of the scan, over indices `0 … lookup.length - 2`. -/
noncomputable def findBracket (L : List ℝ) (v : ℝ) : Option ℕ :=
  findBracketAux L v (L.length - 1) 0

/-- `translateFromLinear(linearValue)`.  The unfound case (`index == -1`)
passes through `~index = 0` in the source, hence the `none` branch mirrors
the `index = 0` fall-through returning `lookup[0]` (or `M` if `bins = 0`). -/
noncomputable def translateFromLinear (t : Translator) (v : ℝ) : ℝ :=
  if v ≤ t._lookup.getD 0 0 then 0
  else if t._lookup.getD (t._bins - 1) 0 < v then t._M
  else if findBracket t._lookup v = some 0 then 0
  else
    let index := (findBracket t._lookup v).getD 0
    if t._bins ≤ index then t._M
    else if 0 < index then
      ((v - t._lookup.getD (index - 1) 0) /
          (t._lookup.getD index 0 - t._lookup.getD (index - 1) 0) +
        (index : ℝ) - 1) * t._resolution
    else t._lookup.getD 0 0

/-- `translateToLinear(scaledValue)`: clamps into `[0, 4.5]`, finds the bin by
`floor`, and interpolates; `none` models the thrown range error. -/
noncomputable def translateToLinear (t : Translator) (scaledValue : ℝ) :
    Option ℝ :=
  let sc := if scaledValue < 0 then 0 else if 4.5 < scaledValue then 4.5 else scaledValue
  let x := sc / t._resolution
  let index : ℤ := ⌊x⌋
  if index < 0 ∨ (t._bins : ℤ) < index then none
  else if index < (t._bins : ℤ) then
    some ((1 - (x - index)) * t._lookup.getD index.toNat 0 +
      (x - index) * t._lookup.getD (index.toNat + 1) 0)
  else some (t._lookup.getD t._bins 0)

/-! ### The translator cache

TS object identity is modelled by tagging each constructed instance with a
fresh id drawn from a counter; the `Map<string, _>` keyed by
`` `${rValue}_${linearMax}` `` is modelled as an association list keyed by the
pair of numeric inputs. -/

/-- Cache state: allocation counter plus key-to-(id, instance) entries. -/
structure CacheState where
  nextId : ℕ
  entries : List ((ℝ × ℝ) × ℕ × Translator)

/-- Lookup by exact key match (the `Map.has`/`Map.get` pair). -/
noncomputable def cacheFind (es : List ((ℝ × ℝ) × ℕ × Translator)) (k : ℝ × ℝ) :
    Option (ℕ × Translator) :=
  match es with
  | [] => none
  | (k', v) :: rest => if k' = k then some v else cacheFind rest k

/-- `constructBiExponentialTranslator` generically over the builder: returns
the cached instance on a key hit, otherwise builds, stores and returns a
freshly tagged instance (`none` when the builder throws). -/
noncomputable def getOrConstruct (build : ℝ → ℝ → Option Translator)
    (st : CacheState) (r lm : ℝ) : Option (CacheState × ℕ × Translator) :=
  match cacheFind st.entries (r, lm) with
  | some v => some (st, v)
  | none =>
    match build r lm with
    | none => none
    | some t =>
      some ({ nextId := st.nextId + 1, entries := ((r, lm), st.nextId, t) :: st.entries },
        st.nextId, t)

/-- The source's cache accessor, specialised to the real constructor. -/
noncomputable def constructBiExponentialTranslator (st : CacheState) (r lm : ℝ) :
    Option (CacheState × ℕ × Translator) :=
  getOrConstruct (fun a b => mkTranslator a b) st r lm

/-- Well-formedness of a cache state: stored ids are below the counter and
pairwise distinct, and keys are pairwise distinct. -/
def CacheWF (st : CacheState) : Prop :=
  (∀ e ∈ st.entries, e.2.1 < st.nextId) ∧
  (st.entries.map (fun e => e.2.1)).Nodup ∧
  (st.entries.map (fun e => e.1)).Nodup

/-! ### Concrete translator values used by witnesses -/

/-- A small concrete translator value (3-entry table, `bins = 2`) used to
instantiate table-level theorems at checkable inputs. -/
noncomputable def tinyT : Translator :=
  { _a := 0, _b := 0, _c := 0, _d := 0, _f := 0
    _x1 := 0, _W := 0, _xTaylor := 0, _taylor := []
    _bins := 2, _lookup := [0, 1, 2]
    _rValue := 0, _resolution := 4.5 / 2, _T := 0, _M := 4.5
    scale := ScaleType.Biexponential, min := 0, max := 0 }

/-- A concrete translator whose coefficient fields satisfy the constructor's
closed-form equations (with `T = 1`, `x0 = x1 = 0`, `b = ln 2`, `d = 0`). -/
noncomputable def wC1T : Translator :=
  { _a := coefA 1 0 0 (Real.log 2) 0, _b := Real.log 2
    _c := coefC 1 0 0 (Real.log 2) 0, _d := 0
    _f := coefF 1 0 0 (Real.log 2) 0
    _x1 := 0, _W := 0, _xTaylor := 0, _taylor := []
    _bins := 1024, _lookup := []
    _rValue := 1, _resolution := 4.5 / 1024, _T := 1, _M := 4.5
    scale := ScaleType.Biexponential, min := 0, max := 0 }

/-- A trivial builder used to instantiate cache theorems. -/
noncomputable def build0 : ℝ → ℝ → Option Translator := fun _ _ => some tinyT

/-! ### A construction whose scale maximum falls inside the Taylor region

With normalized width `w₀ = 3584 ln 2 / (1161 ln 10) ≈ 0.9293 > 4/5` the
cutoff `xTaylor = 1.25 w₀` exceeds `1`, so `inverse` evaluates the scale
maximum with the truncated Taylor series.  This width is reached from the
inputs `(-10^(9 w₀ - 4.5), 1)`, and is chosen so that the root solver's run
is exactly computable: it bisects six times and then exits with
`f(b/128) = -14 ln 2 + w₀ b (129/128) = 0` exactly — so `d = b/128` is an
exact root of the solver's equation.  (In floating point the same phenomenon
occurs already at plain inputs such as `(-1000, 1)`.) -/

/-- The normalized width `w₀ = 3584 ln 2 / (1161 ln 10)`. -/
noncomputable def cexW : ℝ := 3584 * Real.log 2 / (1161 * Real.log 10)

/-- The effective resolution parameter that yields width `w₀`. -/
noncomputable def cexRv : ℝ := (10 : ℝ) ^ (9 * cexW - 4.5)

/-- The raw (negative) constructor input realizing `cexRv`. -/
noncomputable def cexR : ℝ := -cexRv

/-- The root returned by the solver at `(4.5 ln 10, w₀)`: exactly `b / 128`. -/
noncomputable def cexD : ℝ := 4.5 * Real.log 10 / 128

/-- The translator constructed from `(cexR, 1)`. -/
noncomputable def cexT : Translator := mkFromD cexR 1 cexRv cexD

/-- The coefficient `a` of the constructed translator `cexT`. -/
noncomputable def cexA : ℝ := coefA 1 (2 * cexW) cexW (4.5 * Real.log 10) cexD

/-- The coefficient `c` of the constructed translator `cexT`. -/
noncomputable def cexC : ℝ := coefC 1 (2 * cexW) cexW (4.5 * Real.log 10) cexD

/-- `posCoef`-side base `a e^(b x1)` of `cexT`'s Taylor data. -/
noncomputable def cexP : ℝ := cexA * Real.exp (4.5 * Real.log 10 * cexW)

/-- `negCoef`-side base `c e^(-d x1)` of `cexT`'s Taylor data. -/
noncomputable def cexQ : ℝ := cexC / Real.exp (cexD * cexW)

/-! ### Theorems -/

/-- C9: for every `b > 0`, `solve(b, 0)` returns exactly `b`, via the
degenerate `w == 0` early return that precedes the iterative root finder. -/
theorem claim_C9_degenerate_solve (b : ℝ) (hb : 0 < b) :
    solve b 0 = Except.ok b := by
  unfold solve
  simp

/-- Witness for C9 at `b = 10`: `solve(10, 0) == 10`. -/
theorem claim_C9_witness : (0 : ℝ) < 10 ∧ solve 10 0 = Except.ok 10 :=
  ⟨by norm_num, claim_C9_degenerate_solve 10 (by norm_num)⟩

/-- C6: on a translator whose table ends are ordered (`lookup[0] ≤
lookup[bins-1]`, an invariant of constructed tables) and whose `_M` is the
constructor's `4.5`, `translateFromLinear` returns `0` for every
`v ≤ lookup[0]` and `4.5` for every `v > lookup[bins-1]`. -/
theorem claim_C6_boundary_clamp (t : Translator)
    (hord : t._lookup.getD 0 0 ≤ t._lookup.getD (t._bins - 1) 0)
    (hM : t._M = 4.5) :
    (∀ v, v ≤ t._lookup.getD 0 0 → translateFromLinear t v = 0) ∧
    (∀ v, t._lookup.getD (t._bins - 1) 0 < v → translateFromLinear t v = 4.5) := by
  constructor
  · intro v hv
    unfold translateFromLinear
    rw [if_pos hv]
  · intro v hv
    unfold translateFromLinear
    rw [if_neg (not_le.2 (lt_of_le_of_lt hord hv)), if_pos hv, hM]

/-- Witness for C6 on the concrete translator `tinyT`. -/
theorem claim_C6_witness :
    (tinyT._lookup.getD 0 0 ≤ tinyT._lookup.getD (tinyT._bins - 1) 0) ∧
    tinyT._M = 4.5 ∧
    ((∀ v, v ≤ tinyT._lookup.getD 0 0 → translateFromLinear tinyT v = 0) ∧
     (∀ v, tinyT._lookup.getD (tinyT._bins - 1) 0 < v →
       translateFromLinear tinyT v = 4.5)) := by
  have hord : tinyT._lookup.getD 0 0 ≤ tinyT._lookup.getD (tinyT._bins - 1) 0 := by
    norm_num [tinyT, List.getD]
  exact ⟨hord, rfl, claim_C6_boundary_clamp tinyT hord rfl⟩

/-- C10: whenever `resolution = 4.5 / bins` with `bins > 0` (as set by the
constructor, where `M = 4.5`), the initial clamp forces the computed bin index
into `[0, bins]`, so `translateToLinear` never reaches its error branch. -/
theorem claim_C10_translateToLinear_total (t : Translator)
    (hbins : 0 < t._bins) (hres : t._resolution = 4.5 / (t._bins : ℝ)) :
    ∀ s, (translateToLinear t s).isSome = true := by
  intro s
  have hbR : (0 : ℝ) < (t._bins : ℝ) := by exact_mod_cast hbins
  have hresPos : 0 < t._resolution := by
    rw [hres]; positivity
  unfold translateToLinear
  set sc := if s < 0 then (0 : ℝ) else if 4.5 < s then 4.5 else s with hsc
  have hsc0 : 0 ≤ sc := by
    rw [hsc]; split_ifs <;> linarith
  have hsc45 : sc ≤ 4.5 := by
    rw [hsc]; split_ifs <;> linarith
  have hx0 : 0 ≤ sc / t._resolution := div_nonneg hsc0 hresPos.le
  have hxb : sc / t._resolution ≤ (t._bins : ℝ) := by
    rw [hres, div_div_eq_mul_div, div_le_iff (by norm_num : (0 : ℝ) < 4.5)]
    nlinarith [hsc45, hbR]
  have hfl0 : 0 ≤ ⌊sc / t._resolution⌋ := Int.floor_nonneg.2 hx0
  have hflb : ⌊sc / t._resolution⌋ ≤ (t._bins : ℤ) := by
    have := Int.floor_le_floor hxb
    simpa using this
  rw [if_neg]
  · split_ifs <;> simp
  · push_neg
    exact ⟨hfl0, hflb⟩

/-- Witness for C10 on the concrete translator `tinyT`. -/
theorem claim_C10_witness :
    0 < tinyT._bins ∧ tinyT._resolution = 4.5 / (tinyT._bins : ℝ) ∧
    ∀ s, (translateToLinear tinyT s).isSome = true := by
  have h1 : 0 < tinyT._bins := by norm_num [tinyT]
  have h2 : tinyT._resolution = 4.5 / (tinyT._bins : ℝ) := by norm_num [tinyT]
  exact ⟨h1, h2, claim_C10_translateToLinear_total tinyT h1 h2⟩

/-- Early returns are absorbing for the iterated solver step. -/
lemma runSteps_inr (w fb d : ℝ) : ∀ n, runSteps w fb n (Sum.inr d) = Sum.inr d := by
  intro n
  induction n with
  | zero => rfl
  | succ n ih => rw [runSteps]; exact ih

/-- The fuelled solver loop errors exactly when iterating the step function
that many times never takes an early return. -/
lemma solveLoop_error_iff (w fb : ℝ) :
    ∀ n s, solveLoop w fb n s = Except.error () ↔
      (runSteps w fb n (Sum.inl s)).isLeft = true := by
  intro n
  induction n with
  | zero => intro s; simp [solveLoop, runSteps]
  | succ n ih =>
    intro s
    cases hstep : solveStep w fb s with
    | inl s' => simp [solveLoop, runSteps, hstep, ih s']
    | inr d => simp [solveLoop, runSteps, hstep, runSteps_inr]

/-- C4: for `b > 0`, `w > 0`, `solve` always produces a result — either a
root estimate or the convergence error — and the error occurs exactly when
none of the early-exit conditions fires within the loop's 19 refinement
iterations (the source's `for (i = 1; i < 20)` bound; together with the
initial bisection estimate this is the spec's 20-iteration cap).  Totality of
the fuelled model is the absence of an infinite loop. -/
theorem claim_C4_solver_termination (b w : ℝ) (hb : 0 < b) (hw : 0 < w) :
    ((∃ d, solve b w = Except.ok d) ∨ solve b w = Except.error ()) ∧
    (solve b w = Except.error () ↔
      (runSteps w (fB b w) 19 (Sum.inl (initState b w))).isLeft = true) := by
  constructor
  · cases h : solve b w with
    | ok d => exact Or.inl ⟨d, rfl⟩
    | error e => cases e; exact Or.inr rfl
  · unfold solve
    rw [if_neg (ne_of_gt hw)]
    exact solveLoop_error_iff w (fB b w) 19 (initState b w)

/-- Witness for C4 at `b = 1`, `w = 1`. -/
theorem claim_C4_witness :
    (0 : ℝ) < 1 ∧
    (((∃ d, solve 1 1 = Except.ok d) ∨ solve 1 1 = Except.error ()) ∧
     (solve 1 1 = Except.error () ↔
       (runSteps 1 (fB 1 1) 19 (Sum.inl (initState 1 1))).isLeft = true)) :=
  ⟨by norm_num, claim_C4_solver_termination 1 1 (by norm_num) (by norm_num)⟩

/-- C1: for a translator whose coefficients `a`, `c`, `f` are given by the
constructor's closed forms (any parameters `x0`, `x1`, `b`, `d`, a nonzero
denominator in `a`, and `linearMax = T > 0`), the rising and falling
exponential branches agree at `x1` (`a e^(b x1) + f = c e^(-d x1)`), and the
inverse map sends the scale-domain maximum — scale coordinate `1`, the
normalized coordinate of `M` since `b = M ln 10` — exactly to `linearMax`.
The hypotheses `x1 ≤ 1` and `xTaylor ≤ 1` place the maximum outside the
reflected region and the Taylor region, as in every constructed transform
with `w ≤ 4/5`. -/
theorem claim_C1_coefficients_boundary (t : Translator) (x0 : ℝ)
    (hT : 0 < t._T)
    (ha : t._a = coefA t._T x0 t._x1 t._b t._d)
    (hc : t._c = coefC t._T x0 t._x1 t._b t._d)
    (hf : t._f = coefF t._T x0 t._x1 t._b t._d)
    (hden : denomA x0 t._x1 t._b t._d ≠ 0)
    (hx1 : t._x1 ≤ 1) (hxT : t._xTaylor ≤ 1) :
    t._a * Real.exp (t._b * t._x1) + t._f = t._c / Real.exp (t._d * t._x1) ∧
    inverse t 1 = t._T := by
  constructor
  · rw [ha, hc, hf]
    unfold coefC coefF mf_a
    ring
  · unfold inverse biexpCore
    rw [if_neg (not_lt.2 hx1), if_neg (not_lt.2 hxT)]
    rw [mul_one, mul_one, ha, hc, hf]
    unfold coefC coefF
    unfold coefA
    have key :
        t._T / denomA x0 t._x1 t._b t._d * Real.exp t._b +
            -(mf_a x0 t._x1 t._b t._d) * (t._T / denomA x0 t._x1 t._b t._d) -
            c_a x0 t._b t._d * (t._T / denomA x0 t._x1 t._b t._d) /
              Real.exp t._d =
          t._T / denomA x0 t._x1 t._b t._d * denomA x0 t._x1 t._b t._d := by
      unfold denomA
      ring
    rw [key, div_mul_cancel₀ _ hden]

/-- Witness for C1 on the concrete translator `wC1T` (where the denominator
evaluates to `exp (ln 2) - 1 = 1`). -/
theorem claim_C1_witness :
    (0 : ℝ) < wC1T._T ∧ denomA 0 wC1T._x1 wC1T._b wC1T._d ≠ 0 ∧
    (wC1T._a * Real.exp (wC1T._b * wC1T._x1) + wC1T._f =
        wC1T._c / Real.exp (wC1T._d * wC1T._x1) ∧
      inverse wC1T 1 = wC1T._T) := by
  have hT : (0 : ℝ) < wC1T._T := by norm_num [wC1T]
  have hden : denomA 0 wC1T._x1 wC1T._b wC1T._d ≠ 0 := by
    show denomA 0 0 (Real.log 2) 0 ≠ 0
    unfold denomA mf_a c_a
    norm_num [Real.exp_log]
  exact ⟨hT, hden,
    claim_C1_coefficients_boundary wC1T 0 hT rfl rfl rfl hden
      (by norm_num [wC1T]) (by norm_num [wC1T])⟩

/-- `solve` at `w = 0`, as a reusable computation rule. -/
lemma solve_at_zero (b : ℝ) : solve b 0 = Except.ok b := by
  unfold solve
  simp

/-- `log₁₀ 100000 = 5`. -/
lemma logb_ten_1e5 : Real.logb 10 (100000 : ℝ) = 5 := by
  have h10 : (0 : ℝ) < Real.log 10 := Real.log_pos (by norm_num)
  rw [show (100000 : ℝ) = 10 ^ (5 : ℕ) by norm_num]
  unfold Real.logb
  rw [Real.log_pow]
  field_simp

/-- The effective resolution parameter of raw input `-1` is `1`. -/
lemma effR_neg_one : effR (-1) = 1 := by
  unfold effR
  norm_num

/-- At `rv = 1`, `T = 100000` the raw width is negative, so `w` clamps to 0. -/
lemma wParam_deg : wParam 1 100000 = 0 := by
  unfold wParam clampedW rawW
  rw [abs_one, div_one, logb_ten_1e5]
  norm_num

/-- The construction at `(-1, 100000)` succeeds (its `w` is `0`, so the
solver returns immediately). -/
lemma mk_deg_isSome : (mkTranslator (-1) 100000).isSome = true := by
  unfold mkTranslator
  rw [effR_neg_one, wParam_deg, solve_at_zero]
  rfl

/-- The normalization- and range-related fields of the constructed record. -/
lemma mkFromD_fields (rValue lm rv d : ℝ) :
    (mkFromD rValue lm rv d)._rValue = rv ∧
    (mkFromD rValue lm rv d)._lookup = mkLookup lm rv d ∧
    (mkFromD rValue lm rv d).max = (if rValue < 0 then lm else 0) ∧
    (mkFromD rValue lm rv d).min =
      (if rValue < 0 then (mkLookup lm rv d).getD 0 0 else 0) := by
  refine ⟨?_, ?_, ?_, ?_⟩
  · simp only [mkFromD, mkBase]
  · simp only [mkFromD]
  · simp only [mkFromD]
  · simp only [mkFromD]

/-- C8: whenever construction succeeds, a negative raw input is normalized to
its absolute value with the linear range recorded (`max = linearMax`,
`min = lookup[0]`), and a non-negative raw input gets the default resolution
`0.001` with no range recorded (`min = max = 0`). -/
theorem claim_C8_sign_normalization (r lm : ℝ) (t : Translator)
    (h : mkTranslator r lm = some t) :
    (r < 0 → t._rValue = |r| ∧ t.max = lm ∧ t.min = t._lookup.getD 0 0) ∧
    (0 ≤ r → t._rValue = 0.001 ∧ t.max = 0 ∧ t.min = 0) := by
  unfold mkTranslator at h
  cases hs : solve (4.5 * Real.log 10) (wParam (effR r) lm) with
  | error e =>
    rw [hs] at h
    exact absurd h (by simp)
  | ok d =>
    rw [hs] at h
    have ht : t = mkFromD r lm (effR r) d := (Option.some.inj h).symm
    subst ht
    obtain ⟨h1, hlk, h2, h3⟩ := mkFromD_fields r lm (effR r) d
    constructor
    · intro hr
      refine ⟨?_, ?_, ?_⟩
      · rw [h1]
        unfold effR
        rw [if_pos hr]
      · rw [h2, if_pos hr]
      · rw [h3, hlk, if_pos hr]
    · intro hr
      refine ⟨?_, ?_, ?_⟩
      · rw [h1]
        unfold effR
        rw [if_neg (not_lt.2 hr)]
      · rw [h2, if_neg (not_lt.2 hr)]
      · rw [h3, if_neg (not_lt.2 hr)]

/-- Witness for C8 at the concrete construction `(-1, 100000)` (negative raw
input branch; the hypothesis of the claim theorem is discharged by the
successful degenerate construction). -/
theorem claim_C8_witness :
    ∃ t, mkTranslator (-1) 100000 = some t ∧
      (((-1 : ℝ) < 0 → t._rValue = |(-1 : ℝ)| ∧ t.max = 100000 ∧
          t.min = t._lookup.getD 0 0) ∧
       ((0 : ℝ) ≤ -1 → t._rValue = 0.001 ∧ t.max = 0 ∧ t.min = 0)) := by
  obtain ⟨t, ht⟩ := Option.isSome_iff_exists.mp mk_deg_isSome
  exact ⟨t, ht, claim_C8_sign_normalization (-1) 100000 t ht⟩

/-- A successful cache lookup returns an entry of the list at the key. -/
lemma cacheFind_mem {es : List ((ℝ × ℝ) × ℕ × Translator)} {k : ℝ × ℝ}
    {v : ℕ × Translator} (h : cacheFind es k = some v) : (k, v) ∈ es := by
  induction es with
  | nil => simp [cacheFind] at h
  | cons e rest ih =>
    rcases e with ⟨k', v'⟩
    rw [cacheFind] at h
    by_cases hk : k' = k
    · rw [if_pos hk] at h
      subst hk
      have hv : v' = v := Option.some.inj h
      subst hv
      exact List.mem_cons_self _ _
    · rw [if_neg hk] at h
      exact List.mem_cons_of_mem _ (ih h)

/-- C7: on a well-formed cache, a successful `getOrConstruct` is idempotent —
repeating the call with the same two numeric inputs returns the same state
and the very same instance (same allocation id) — while a subsequent call
with any different input pair never returns that instance. -/
theorem claim_C7_cache_identity (build : ℝ → ℝ → Option Translator)
    (st st1 : CacheState) (r lm : ℝ) (i1 : ℕ) (t1 : Translator)
    (hwf : CacheWF st)
    (h1 : getOrConstruct build st r lm = some (st1, i1, t1)) :
    getOrConstruct build st1 r lm = some (st1, i1, t1) ∧
    ∀ r' lm' st2 i2 t2, (r', lm') ≠ (r, lm) →
      getOrConstruct build st1 r' lm' = some (st2, i2, t2) → i2 ≠ i1 := by
  obtain ⟨hid, hnodupId, hnodupKey⟩ := hwf
  unfold getOrConstruct at h1
  cases hf : cacheFind st.entries (r, lm) with
  | some v =>
    rw [hf] at h1
    have h' := Option.some.inj h1
    have hst : st = st1 := congrArg Prod.fst h'
    have hv : v = (i1, t1) := congrArg Prod.snd h'
    subst hst
    subst hv
    have hf' : cacheFind st.entries (r, lm) = some (i1, t1) := hf
    constructor
    · unfold getOrConstruct
      rw [hf']
    · intro r' lm' st2 i2 t2 hne h2
      unfold getOrConstruct at h2
      cases hf2 : cacheFind st.entries (r', lm') with
      | some v2 =>
        rw [hf2] at h2
        have hv2 : v2 = (i2, t2) := congrArg Prod.snd (Option.some.inj h2)
        subst hv2
        have m1 : ((r, lm), (i1, t1)) ∈ st.entries := cacheFind_mem hf'
        have m2 : ((r', lm'), (i2, t2)) ∈ st.entries := cacheFind_mem hf2
        intro hii
        have heq := List.inj_on_of_nodup_map hnodupId m2 m1 (by simpa using hii)
        exact hne (congrArg Prod.fst heq)
      | none =>
        rw [hf2] at h2
        cases hb2 : build r' lm' with
        | none =>
          rw [hb2] at h2
          exact absurd h2 (by simp)
        | some tb =>
          rw [hb2] at h2
          have hi2 : st.nextId = i2 :=
            congrArg (fun p => p.2.1) (Option.some.inj h2)
          have m1 : ((r, lm), (i1, t1)) ∈ st.entries := cacheFind_mem hf'
          have hlt : i1 < st.nextId := hid _ m1
          intro hii
          omega
  | none =>
    rw [hf] at h1
    cases hb : build r lm with
    | none =>
      rw [hb] at h1
      exact absurd h1 (by simp)
    | some tb =>
      rw [hb] at h1
      have h' := Option.some.inj h1
      have hst : CacheState.mk (st.nextId + 1)
          (((r, lm), st.nextId, tb) :: st.entries) = st1 :=
        congrArg Prod.fst h'
      have hi : st.nextId = i1 := congrArg (fun p => p.2.1) h'
      have htb : tb = t1 := congrArg (fun p => p.2.2) h'
      subst htb
      subst hi
      constructor
      · unfold getOrConstruct
        rw [← hst]
        rw [show cacheFind (((r, lm), st.nextId, tb) :: st.entries) (r, lm) =
          some (st.nextId, tb) from by rw [cacheFind, if_pos rfl]]
      · intro r' lm' st2 i2 t2 hne h2
        unfold getOrConstruct at h2
        rw [← hst] at h2
        rw [show cacheFind (((r, lm), st.nextId, tb) :: st.entries) (r', lm') =
          cacheFind st.entries (r', lm') from by
            rw [cacheFind, if_neg (fun hh => hne hh.symm)]] at h2
        cases hf2 : cacheFind st.entries (r', lm') with
        | some v2 =>
          rw [hf2] at h2
          have hv2 : v2 = (i2, t2) := congrArg Prod.snd (Option.some.inj h2)
          subst hv2
          have m2 : ((r', lm'), (i2, t2)) ∈ st.entries := cacheFind_mem hf2
          have hlt : i2 < st.nextId := hid _ m2
          omega
        | none =>
          rw [hf2] at h2
          cases hb2 : build r' lm' with
          | none =>
            rw [hb2] at h2
            exact absurd h2 (by simp)
          | some tb2 =>
            rw [hb2] at h2
            have hi2 : st.nextId + 1 = i2 :=
              congrArg (fun p => p.2.1) (Option.some.inj h2)
            omega

/-- Witness for C7: from an empty cache, `getOrConstruct(1, 1000)` constructs
instance id 0; repeating the call returns the identical instance, and any
other key (e.g. `(2, 1000)`) yields a distinct one. -/
theorem claim_C7_witness :
    CacheWF (CacheState.mk 0 []) ∧
    getOrConstruct build0 (CacheState.mk 0 []) 1 1000 =
      some (CacheState.mk 1 [((1, 1000), 0, tinyT)], 0, tinyT) ∧
    (getOrConstruct build0 (CacheState.mk 1 [((1, 1000), 0, tinyT)]) 1 1000 =
        some (CacheState.mk 1 [((1, 1000), 0, tinyT)], 0, tinyT) ∧
     ∀ r' lm' st2 i2 t2, (r', lm') ≠ ((1 : ℝ), (1000 : ℝ)) →
       getOrConstruct build0 (CacheState.mk 1 [((1, 1000), 0, tinyT)]) r' lm' =
         some (st2, i2, t2) → i2 ≠ 0) := by
  have hwf : CacheWF (CacheState.mk 0 []) := ⟨by simp, by simp, by simp⟩
  have h1 : getOrConstruct build0 (CacheState.mk 0 []) 1 1000 =
      some (CacheState.mk 1 [((1, 1000), 0, tinyT)], 0, tinyT) := rfl
  exact ⟨hwf, h1, claim_C7_cache_identity build0 _ _ 1 1000 0 tinyT hwf h1⟩

/-- The scan returns the first bracketing index when one exists in range. -/
lemma findBracketAux_some (L : List ℝ) (v : ℝ) :
    ∀ fuel j i : ℕ, j ≤ i → i < j + fuel →
    (∀ k, j ≤ k → k < i → ¬(L.getD k 0 ≤ v ∧ v < L.getD (k + 1) 0)) →
    (L.getD i 0 ≤ v ∧ v < L.getD (i + 1) 0) →
    findBracketAux L v fuel j = some i := by
  intro fuel
  induction fuel with
  | zero =>
    intro j i hji hif _ _
    omega
  | succ fuel ih =>
    intro j i hji hif hskip hit
    rw [findBracketAux]
    by_cases hji2 : j = i
    · subst hji2
      rw [if_pos hit]
    · have hj : j < i := lt_of_le_of_ne hji hji2
      rw [if_neg (hskip j le_rfl hj)]
      exact ih (j + 1) i hj (by omega) (fun k hk1 hk2 => hskip k (by omega) hk2) hit

/-- On a strictly increasing table, the scan finds the bracketing cell. -/
lemma findBracket_some (L : List ℝ) (v : ℝ) (i : ℕ)
    (hi : i + 1 < L.length)
    (hmono : ∀ a b : ℕ, a < b → b < L.length → L.getD a 0 < L.getD b 0)
    (h1 : L.getD i 0 ≤ v) (h2 : v < L.getD (i + 1) 0) :
    findBracket L v = some i := by
  apply findBracketAux_some L v (L.length - 1) 0 i (Nat.zero_le i) (by omega)
  · intro k hk0 hki hc
    have hle : L.getD (k + 1) 0 ≤ L.getD i 0 := by
      rcases eq_or_lt_of_le (by omega : k + 1 ≤ i) with he | hl
      · rw [he]
      · exact le_of_lt (hmono (k + 1) i hl (by omega))
    exact absurd hc.2 (not_lt.2 (le_trans hle h1))
  · exact ⟨h1, h2⟩

/-- Value of `translateToLinear` on an interpolation bin: for `j ≤ z < j + 1`
with `j < bins` and the scale value in `[0, 4.5]`, the result interpolates
between `lookup[j]` and `lookup[j+1]`. -/
lemma translateToLinear_interp (t : Translator) (z : ℝ) (j : ℕ)
    (hres : 0 < t._resolution)
    (hjz : (j : ℝ) ≤ z) (hzj : z < (j : ℝ) + 1)
    (hjb : j < t._bins)
    (hs0 : 0 ≤ z * t._resolution) (hs45 : z * t._resolution ≤ 4.5) :
    translateToLinear t (z * t._resolution) =
      some ((1 - (z - j)) * t._lookup.getD j 0 +
        (z - j) * t._lookup.getD (j + 1) 0) := by
  simp only [translateToLinear]
  rw [if_neg (not_lt.2 hs0), if_neg (not_lt.2 hs45)]
  rw [mul_div_cancel_right₀ z (ne_of_gt hres)]
  have hfl : ⌊z⌋ = (j : ℤ) := by
    rw [Int.floor_eq_iff]
    constructor
    · exact_mod_cast hjz
    · push_cast
      linarith
  rw [hfl]
  rw [if_neg, if_pos]
  · rw [Int.toNat_natCast]
    congr 2
  · exact_mod_cast hjb
  · push_neg
    constructor
    · exact_mod_cast Nat.zero_le j
    · exact_mod_cast le_of_lt hjb

/-- Value of `translateFromLinear` on an interior cell of a strictly
increasing table: for `lookup[i] ≤ x < lookup[i+1]` with `1 ≤ i ≤ bins - 1`
and `x ≤ lookup[bins-1]`, the scan finds cell `i` and the result interpolates
against the previous cell, as in the source. -/
lemma translateFromLinear_interp (t : Translator) (x : ℝ) (i : ℕ)
    (hi1 : 1 ≤ i) (hib : i ≤ t._bins - 1) (hb2 : 2 ≤ t._bins)
    (hlen : t._lookup.length = t._bins + 1)
    (hmono : ∀ a b : ℕ, a < b → b < t._lookup.length →
      t._lookup.getD a 0 < t._lookup.getD b 0)
    (hxi : t._lookup.getD i 0 ≤ x) (hxi1 : x < t._lookup.getD (i + 1) 0)
    (hxtop : x ≤ t._lookup.getD (t._bins - 1) 0) :
    translateFromLinear t x =
      ((x - t._lookup.getD (i - 1) 0) /
          (t._lookup.getD i 0 - t._lookup.getD (i - 1) 0) + (i : ℝ) - 1) *
        t._resolution := by
  have hL0 : t._lookup.getD 0 0 < x :=
    lt_of_lt_of_le (hmono 0 i (by omega) (by omega)) hxi
  have hfb : findBracket t._lookup x = some i :=
    findBracket_some t._lookup x i (by omega) hmono hxi hxi1
  simp only [translateFromLinear]
  rw [if_neg (not_le.2 hL0), if_neg (not_lt.2 hxtop), hfb]
  rw [if_neg (by simp only [Option.some.injEq]; omega)]
  rw [Option.getD_some]
  rw [if_neg (by omega), if_pos (by omega)]

/-- C3: round trip through the table.  On a strictly increasing lookup table
whose cell widths are at most `D` and where adjacent cells differ in width by
less than a factor 2 (amply true of constructed tables, whose adjacent-width
ratio is about `10^(4.5/1024)`), every `x` with
`lookup[0] ≤ x ≤ lookup[bins-1]` satisfies
`|translateToLinear(translateFromLinear(x)) - x| ≤ 2 D`: the round trip
reproduces `x` up to the one-cell interpolation-error scale. -/
theorem claim_C3_roundtrip (t : Translator) (D x : ℝ)
    (hb2 : 2 ≤ t._bins)
    (hlen : t._lookup.length = t._bins + 1)
    (hres : t._resolution = 4.5 / (t._bins : ℝ))
    (hmono : ∀ a b : ℕ, a < b → b < t._lookup.length →
      t._lookup.getD a 0 < t._lookup.getD b 0)
    (hD : ∀ i : ℕ, i + 1 < t._lookup.length →
      t._lookup.getD (i + 1) 0 - t._lookup.getD i 0 ≤ D)
    (hratio : ∀ i : ℕ, i + 2 < t._lookup.length →
      t._lookup.getD (i + 2) 0 - t._lookup.getD (i + 1) 0 <
        2 * (t._lookup.getD (i + 1) 0 - t._lookup.getD i 0))
    (hx0 : t._lookup.getD 0 0 ≤ x)
    (hx1 : x ≤ t._lookup.getD (t._bins - 1) 0) :
    ∃ y, translateToLinear t (translateFromLinear t x) = some y ∧
      |y - x| ≤ 2 * D := by
  classical
  have hbR : (0 : ℝ) < (t._bins : ℝ) := by
    have h : 0 < t._bins := by omega
    exact_mod_cast h
  have hresPos : 0 < t._resolution := by
    rw [hres]
    positivity
  have hD01 : t._lookup.getD 0 0 < t._lookup.getD 1 0 :=
    hmono 0 1 (by omega) (by omega)
  have hD0le : t._lookup.getD (0 + 1) 0 - t._lookup.getD 0 0 ≤ D :=
    hD 0 (by omega)
  have hDpos : 0 < D := by
    rw [show (0 : ℕ) + 1 = 1 from rfl] at hD0le
    linarith
  obtain ⟨i, hile, hpi, hnext⟩ :
      ∃ i, i ≤ t._bins - 1 ∧ t._lookup.getD i 0 ≤ x ∧
        x < t._lookup.getD (i + 1) 0 := by
    set P : ℕ → Prop := fun k => t._lookup.getD k 0 ≤ x with hPdef
    have hP0 : P 0 := hx0
    have hspec : P (Nat.findGreatest P (t._bins - 1)) :=
      Nat.findGreatest_spec (Nat.zero_le _) hP0
    refine ⟨Nat.findGreatest P (t._bins - 1), Nat.findGreatest_le _, hspec, ?_⟩
    rcases lt_or_ge (Nat.findGreatest P (t._bins - 1)) (t._bins - 1)
      with hlt | hge
    · by_contra hc
      push_neg at hc
      have hPc : P (Nat.findGreatest P (t._bins - 1) + 1) := hc
      exact Nat.findGreatest_is_greatest (Nat.lt_succ_self _) (by omega) hPc
    · have hieq : Nat.findGreatest P (t._bins - 1) = t._bins - 1 :=
        le_antisymm (Nat.findGreatest_le _) hge
      have hxle2 : x ≤ t._lookup.getD (Nat.findGreatest P (t._bins - 1)) 0 := by
        rw [hieq]
        exact hx1
      have hxeq : x = t._lookup.getD (Nat.findGreatest P (t._bins - 1)) 0 :=
        le_antisymm hxle2 hspec
      exact lt_of_le_of_lt (le_of_eq hxeq)
        (hmono _ _ (Nat.lt_succ_self _) (by omega))
  rcases Nat.eq_zero_or_pos i with hi0 | hi1
  · -- the first cell: the transform collapses to lookup[0]
    subst hi0
    have htfl : translateFromLinear t x = 0 := by
      by_cases hxle : x ≤ t._lookup.getD 0 0
      · simp only [translateFromLinear]
        rw [if_pos hxle]
      · have hfb : findBracket t._lookup x = some 0 :=
          findBracket_some t._lookup x 0 (by omega) hmono hx0 hnext
        simp only [translateFromLinear]
        rw [if_neg hxle, if_neg (not_lt.2 hx1), if_pos hfb]
    rw [htfl, show (0 : ℝ) = 0 * t._resolution from (zero_mul _).symm]
    rw [translateToLinear_interp t 0 0 hresPos (by norm_num) (by norm_num)
      (by omega) (by simp) (by simp; norm_num)]
    refine ⟨_, rfl, ?_⟩
    have hy : (1 - ((0 : ℝ) - ((0 : ℕ) : ℝ))) * t._lookup.getD 0 0 +
        ((0 : ℝ) - ((0 : ℕ) : ℝ)) * t._lookup.getD (0 + 1) 0 =
        t._lookup.getD 0 0 := by
      push_cast
      ring
    rw [hy, abs_sub_comm, abs_of_nonneg (sub_nonneg.2 hx0)]
    rw [show (0 : ℕ) + 1 = 1 from rfl] at hnext
    linarith
  · -- an interior cell i = m + 1
    obtain ⟨m, rfl⟩ : ∃ m, i = m + 1 := ⟨i - 1, by omega⟩
    rw [show m + 1 + 1 = m + 2 from rfl] at hnext
    have hp1 : 0 < t._lookup.getD (m + 1) 0 - t._lookup.getD m 0 := by
      have h := hmono m (m + 1) (by omega) (by omega)
      linarith
    have hc1 : 0 < t._lookup.getD (m + 2) 0 - t._lookup.getD (m + 1) 0 := by
      have h := hmono (m + 1) (m + 2) (by omega) (by omega)
      linarith
    have hple : t._lookup.getD (m + 1) 0 - t._lookup.getD m 0 ≤ D :=
      hD m (by omega)
    have hcle : t._lookup.getD (m + 2) 0 - t._lookup.getD (m + 1) 0 ≤ D := by
      have h := hD (m + 1) (by omega)
      rw [show m + 1 + 1 = m + 2 from rfl] at h
      exact h
    set u := (x - t._lookup.getD m 0) /
      (t._lookup.getD (m + 1) 0 - t._lookup.getD m 0) with hu
    have humcap : u * (t._lookup.getD (m + 1) 0 - t._lookup.getD m 0) =
        x - t._lookup.getD m 0 := by
      rw [hu]
      exact div_mul_cancel₀ _ (ne_of_gt hp1)
    have hxval : x = t._lookup.getD m 0 +
        u * (t._lookup.getD (m + 1) 0 - t._lookup.getD m 0) := by
      linarith [humcap]
    have hu1 : 1 ≤ u := by
      rw [hu, le_div_iff hp1]
      linarith [hpi]
    have hu3 : u < 3 := by
      have hr := hratio m (by omega)
      rw [hu, div_lt_iff hp1]
      linarith [hnext]
    have hm0 : (0 : ℝ) ≤ (m : ℝ) := Nat.cast_nonneg m
    have htfl : translateFromLinear t x =
        (u + (m : ℝ)) * t._resolution := by
      rw [translateFromLinear_interp t x (m + 1) (by omega) hile hb2 hlen
        hmono hpi hnext hx1]
      rw [show (m + 1) - 1 = m from rfl]
      rw [← hu]
      push_cast
      ring_nf
    rcases lt_or_ge u 2 with hu2 | hu2
    · -- lands in cell m + 1
      have hz1 : ((m + 1 : ℕ) : ℝ) ≤ u + (m : ℝ) := by
        push_cast
        linarith
      have hz2 : u + (m : ℝ) < ((m + 1 : ℕ) : ℝ) + 1 := by
        push_cast
        linarith
      have hjb : m + 1 < t._bins := by omega
      have hs0 : 0 ≤ (u + (m : ℝ)) * t._resolution := by
        apply mul_nonneg (by linarith) hresPos.le
      have hs45 : (u + (m : ℝ)) * t._resolution ≤ 4.5 := by
        have hlt : u + (m : ℝ) ≤ (t._bins : ℝ) := by
          have hcb : ((m + 2 : ℕ) : ℝ) ≤ (t._bins : ℝ) := by
            exact_mod_cast (by omega : m + 2 ≤ t._bins)
          push_cast at hcb
          linarith
        calc (u + (m : ℝ)) * t._resolution
            ≤ (t._bins : ℝ) * t._resolution :=
              mul_le_mul_of_nonneg_right hlt hresPos.le
          _ = 4.5 := by
              rw [hres]
              field_simp
      rw [htfl, translateToLinear_interp t (u + (m : ℝ)) (m + 1) hresPos
        hz1 hz2 hjb hs0 hs45]
      refine ⟨_, rfl, ?_⟩
      have key : (1 - (u + (m : ℝ) - ((m + 1 : ℕ) : ℝ))) *
            t._lookup.getD (m + 1) 0 +
            (u + (m : ℝ) - ((m + 1 : ℕ) : ℝ)) * t._lookup.getD (m + 1 + 1) 0 -
            x =
          (u - 1) * ((t._lookup.getD (m + 2) 0 - t._lookup.getD (m + 1) 0) -
            (t._lookup.getD (m + 1) 0 - t._lookup.getD m 0)) := by
        rw [show m + 1 + 1 = m + 2 from rfl, hxval]
        push_cast
        ring
      rw [key, abs_mul]
      have h1 : |u - 1| ≤ 1 := by
        rw [abs_of_nonneg (by linarith)]
        linarith
      have h2 : |t._lookup.getD (m + 2) 0 - t._lookup.getD (m + 1) 0 -
          (t._lookup.getD (m + 1) 0 - t._lookup.getD m 0)| ≤ D :=
        abs_le.2 ⟨by linarith, by linarith⟩
      calc |u - 1| * |t._lookup.getD (m + 2) 0 - t._lookup.getD (m + 1) 0 -
          (t._lookup.getD (m + 1) 0 - t._lookup.getD m 0)|
          ≤ 1 * D := mul_le_mul h1 h2 (abs_nonneg _) (by norm_num)
        _ ≤ 2 * D := by linarith
    · -- lands in cell m + 2
      have hxgt : t._lookup.getD (m + 1) 0 < x := by
        have h2p : 2 * (t._lookup.getD (m + 1) 0 - t._lookup.getD m 0) ≤
            u * (t._lookup.getD (m + 1) 0 - t._lookup.getD m 0) :=
          mul_le_mul_of_nonneg_right hu2 hp1.le
        rw [humcap] at h2p
        linarith
      have hmb : m + 1 < t._bins - 1 := by
        by_contra hc
        push_neg at hc
        have heq : m + 1 = t._bins - 1 := by omega
        rw [heq] at hxgt
        linarith
      have hd1 : 0 < t._lookup.getD (m + 3) 0 - t._lookup.getD (m + 2) 0 := by
        have h := hmono (m + 2) (m + 3) (by omega) (by omega)
        linarith
      have hdle : t._lookup.getD (m + 3) 0 - t._lookup.getD (m + 2) 0 ≤ D := by
        have h := hD (m + 2) (by omega)
        rw [show m + 2 + 1 = m + 3 from rfl] at h
        exact h
      have hz1 : ((m + 2 : ℕ) : ℝ) ≤ u + (m : ℝ) := by
        push_cast
        linarith
      have hz2 : u + (m : ℝ) < ((m + 2 : ℕ) : ℝ) + 1 := by
        push_cast
        linarith
      have hjb : m + 2 < t._bins := by omega
      have hs0 : 0 ≤ (u + (m : ℝ)) * t._resolution :=
        mul_nonneg (by linarith) hresPos.le
      have hs45 : (u + (m : ℝ)) * t._resolution ≤ 4.5 := by
        have hlt : u + (m : ℝ) ≤ (t._bins : ℝ) := by
          have hcb : ((m + 3 : ℕ) : ℝ) ≤ (t._bins : ℝ) := by
            exact_mod_cast (by omega : m + 3 ≤ t._bins)
          push_cast at hcb
          linarith
        calc (u + (m : ℝ)) * t._resolution
            ≤ (t._bins : ℝ) * t._resolution :=
              mul_le_mul_of_nonneg_right hlt hresPos.le
          _ = 4.5 := by
              rw [hres]
              field_simp
      rw [htfl, translateToLinear_interp t (u + (m : ℝ)) (m + 2) hresPos
        hz1 hz2 hjb hs0 hs45]
      refine ⟨_, rfl, ?_⟩
      have key : (1 - (u + (m : ℝ) - ((m + 2 : ℕ) : ℝ))) *
            t._lookup.getD (m + 2) 0 +
            (u + (m : ℝ) - ((m + 2 : ℕ) : ℝ)) * t._lookup.getD (m + 2 + 1) 0 -
            x =
          (t._lookup.getD (m + 2) 0 - x) +
            (u - 2) * (t._lookup.getD (m + 3) 0 - t._lookup.getD (m + 2) 0) := by
        rw [show m + 2 + 1 = m + 3 from rfl]
        push_cast
        ring
      have hub : u - 2 ≤ 1 := by linarith
      have hub0 : (0 : ℝ) ≤ u - 2 := by linarith
      have hprod1 : 0 ≤ (u - 2) *
          (t._lookup.getD (m + 3) 0 - t._lookup.getD (m + 2) 0) :=
        mul_nonneg hub0 hd1.le
      have hprod2 : (u - 2) *
          (t._lookup.getD (m + 3) 0 - t._lookup.getD (m + 2) 0) ≤ 1 * D :=
        mul_le_mul hub hdle hd1.le (by norm_num)
      rw [key, abs_of_nonneg (by linarith [hnext])]
      linarith [hpi, hcle]

/-- Witness for C3 on the concrete translator `tinyT` at `x = 1`, `D = 1`. -/
theorem claim_C3_witness :
    2 ≤ tinyT._bins ∧ tinyT._lookup.length = tinyT._bins + 1 ∧
    tinyT._resolution = 4.5 / (tinyT._bins : ℝ) ∧
    (∃ y, translateToLinear tinyT (translateFromLinear tinyT 1) = some y ∧
      |y - 1| ≤ 2 * 1) := by
  have h1 : 2 ≤ tinyT._bins := by norm_num [tinyT]
  have h2 : tinyT._lookup.length = tinyT._bins + 1 := by norm_num [tinyT]
  have h3 : tinyT._resolution = 4.5 / (tinyT._bins : ℝ) := by norm_num [tinyT]
  have h4 : ∀ a b : ℕ, a < b → b < tinyT._lookup.length →
      tinyT._lookup.getD a 0 < tinyT._lookup.getD b 0 := by
    intro a b hab hb
    simp only [tinyT] at hb ⊢
    norm_num at hb
    interval_cases b <;> interval_cases a <;> norm_num [List.getD]
  have h5 : ∀ i : ℕ, i + 1 < tinyT._lookup.length →
      tinyT._lookup.getD (i + 1) 0 - tinyT._lookup.getD i 0 ≤ 1 := by
    intro i hi
    simp only [tinyT] at hi ⊢
    norm_num at hi
    have hcase : i = 0 ∨ i = 1 := by omega
    rcases hcase with rfl | rfl <;> norm_num [List.getD]
  have h6 : ∀ i : ℕ, i + 2 < tinyT._lookup.length →
      tinyT._lookup.getD (i + 2) 0 - tinyT._lookup.getD (i + 1) 0 <
        2 * (tinyT._lookup.getD (i + 1) 0 - tinyT._lookup.getD i 0) := by
    intro i hi
    simp only [tinyT] at hi ⊢
    norm_num at hi
    have hcase : i = 0 := by omega
    rcases hcase with rfl
    norm_num [List.getD]
  have h7 : tinyT._lookup.getD 0 0 ≤ 1 := by norm_num [tinyT, List.getD]
  have h8 : (1 : ℝ) ≤ tinyT._lookup.getD (tinyT._bins - 1) 0 := by
    norm_num [tinyT, List.getD]
  exact ⟨h1, h2, h3, claim_C3_roundtrip tinyT 1 1 h1 h2 h3 h4 h5 h6 h7 h8⟩


/-! ### Numeric groundwork for the Taylor-region construction -/

/-- `ln 10` is positive. -/
lemma log_ten_pos : (0:ℝ) < Real.log 10 := Real.log_pos (by norm_num)

/-- Dyadic logarithm bound: `33 ln 2 < 10 ln 10`, from `2^33 < 10^10`. -/
lemma log_pow_lb : 33 * Real.log 2 < 10 * Real.log 10 := by
  have h : ((2:ℝ) ^ (33:ℕ)) < (10:ℝ) ^ (10:ℕ) := by norm_num
  have h2 := Real.log_lt_log (by positivity) h
  rw [Real.log_pow, Real.log_pow] at h2
  push_cast at h2
  exact h2

/-- Dyadic logarithm bound: `3 ln 10 < 10 ln 2`, from `10^3 < 2^10`. -/
lemma log_pow_ub : 3 * Real.log 10 < 10 * Real.log 2 := by
  have h : ((10:ℝ) ^ (3:ℕ)) < (2:ℝ) ^ (10:ℕ) := by norm_num
  have h2 := Real.log_lt_log (by positivity) h
  rw [Real.log_pow, Real.log_pow] at h2
  push_cast at h2
  exact h2

/-- The engineered width `w₀` is positive. -/
lemma cexW_pos : 0 < cexW := by
  have h2 : (0:ℝ) < Real.log 2 := Real.log_pos (by norm_num)
  have h10 : (0:ℝ) < Real.log 10 := log_ten_pos
  unfold cexW
  positivity

/-- The engineered width `w₀` is below `1`. -/
lemma cexW_lt_one : cexW < 1 := by
  have h2 : (0:ℝ) < Real.log 2 := Real.log_pos (by norm_num)
  have h10 : (0:ℝ) < Real.log 10 := log_ten_pos
  unfold cexW
  rw [div_lt_one (by positivity)]
  linarith [log_pow_lb]

/-- The engineered width `w₀` exceeds `4/5`, so `xTaylor = 1.25 w₀ > 1`. -/
lemma cexW_gt : (4:ℝ)/5 < cexW := by
  have h2 : (0:ℝ) < Real.log 2 := Real.log_pos (by norm_num)
  have h10 : (0:ℝ) < Real.log 10 := log_ten_pos
  unfold cexW
  rw [lt_div_iff₀ (by positivity)]
  linarith [log_pow_ub]

/-- The solver parameter `b = 4.5 ln 10` exceeds `4`. -/
lemma bb_gt_four : (4:ℝ) < 4.5 * Real.log 10 := by
  linarith [log_pow_lb, Real.log_two_gt_d9]

/-- The solver parameter `b = 4.5 ln 10` is below `11`. -/
lemma bb_lt_eleven : 4.5 * Real.log 10 < 11 := by
  linarith [log_pow_ub, Real.log_two_lt_d9]

/-- The product `w₀ b` is the dyadic-rational multiple `(1792/129) ln 2`. -/
lemma kappa_eq : cexW * (4.5 * Real.log 10) = 1792 / 129 * Real.log 2 := by
  have h10 : Real.log 10 ≠ 0 := ne_of_gt log_ten_pos
  unfold cexW
  field_simp
  ring

/-! ### Shape lemmas for single solver iterations -/

/-- Shape of the first solver iteration from the initial state when the
bisection guard holds: a bisection step producing the halved state. -/
lemma solveStep_init_bis (w fb bb q' F F' : ℝ)
    (hguard : 0 ≤ ((bb / 2 - bb) * (2 / (bb / 2) + w) - F) *
      ((bb / 2 - 0) * (2 / (bb / 2) + w) - F))
    (hq' : 0 + (bb - 0) / 2 = q')
    (hq'ne : ¬ q' = 0)
    (heps : ¬ |(bb - 0) / 2| < 1e-12)
    (hF' : 2 * Real.log q' + w * q' + fb = F')
    (hF'0 : ¬ F' = 0)
    (hF'neg : ¬ F' < 0) :
    solveStep w fb ⟨0, bb, bb / 2, bb - 0, F, none⟩ =
      Sum.inl ⟨0, q', q', q', F', some F'⟩ := by
  simp only [solveStep]
  rw [if_pos (Or.inl hguard), hq', if_neg hq'ne]
  simp only [solveCont]
  rw [if_neg heps, hF']
  rw [if_neg (by simp [hF'0])]
  rw [if_neg hF'neg, if_neg hF'neg]
  rw [show (bb - 0) / 2 = q' from by linarith]

/-- Shape of a solver iteration from a collapsed bracket state
`⟨0, q, q, q, F, some F⟩` when the bisection guard holds and no early exit
fires: the bracket halves. -/
lemma solveStep_halving (w fb q q' F F' : ℝ)
    (hguard : 0 ≤ ((q - q) * (2 / q + w) - F) * ((q - 0) * (2 / q + w) - F))
    (hq' : 0 + (q - 0) / 2 = q')
    (hq'ne : ¬ q' = 0)
    (heps : ¬ |(q - 0) / 2| < 1e-12)
    (hF' : 2 * Real.log q' + w * q' + fb = F')
    (hF'0 : ¬ F' = 0)
    (hFne : ¬ F = F')
    (hF'neg : ¬ F' < 0) :
    solveStep w fb ⟨0, q, q, q, F, some F⟩ =
      Sum.inl ⟨0, q', q', q', F', some F'⟩ := by
  simp only [solveStep]
  rw [if_pos (Or.inl hguard), hq', if_neg hq'ne]
  simp only [solveCont]
  rw [if_neg heps, hF']
  rw [if_neg (by simp only [Option.some.injEq]; push_neg; exact ⟨hF'0, hFne⟩)]
  rw [if_neg hF'neg, if_neg hF'neg]
  rw [show (q - 0) / 2 = q' from by linarith]

/-- Shape of a solver iteration that bisects (via the slow-convergence
disjunct) and then returns because the objective is exactly zero. -/
lemma solveStep_exit (w fb q q' F : ℝ)
    (hguard : |1.9 * F| > |q * (2 / q + w)|)
    (hq' : 0 + (q - 0) / 2 = q')
    (hq'ne : ¬ q' = 0)
    (heps : ¬ |(q - 0) / 2| < 1e-12)
    (hF0 : 2 * Real.log q' + w * q' + fb = 0) :
    solveStep w fb ⟨0, q, q, q, F, some F⟩ = Sum.inr q' := by
  simp only [solveStep]
  rw [if_pos (Or.inr hguard), hq', if_neg hq'ne]
  simp only [solveCont]
  rw [if_neg heps, hF0]
  exact if_pos (Or.inl rfl)

/-- Unfolding rule for the fuelled loop on a continuing step. -/
lemma solveLoop_cons (w fb : ℝ) (n : ℕ) (s s' : SolveState)
    (h : solveStep w fb s = Sum.inl s') :
    solveLoop w fb (n + 1) s = solveLoop w fb n s' := by
  rw [solveLoop, h]

/-- Unfolding rule for the fuelled loop on an early return. -/
lemma solveLoop_stop (w fb : ℝ) (n : ℕ) (s : SolveState) (d : ℝ)
    (h : solveStep w fb s = Sum.inr d) :
    solveLoop w fb (n + 1) s = Except.ok d := by
  rw [solveLoop, h]

/-- The solver's Newton guard holds at a collapsed bracket state when the
objective is positive and larger than `2 + w q`. -/
lemma guard_shape (q F w : ℝ) (hq : 0 < q) (hF : 0 < F)
    (hfac : 2 + w * q - F < 0) :
    0 ≤ ((q - q) * (2 / q + w) - F) * ((q - 0) * (2 / q + w) - F) := by
  have h2q : (2:ℝ) / q * q = 2 := div_mul_cancel₀ 2 (ne_of_gt hq)
  have e1 : (q - q) * (2 / q + w) - F = -F := by ring
  have e2 : (q - 0) * (2 / q + w) - F = 2 + w * q - F := by
    linear_combination h2q
  rw [e1, e2]
  exact le_of_lt (mul_pos_of_neg_of_neg (by linarith) hfac)

/-- The solver's Newton guard at the initial state, same criterion. -/
lemma guard_shape_init (bb F w : ℝ) (hbb : 0 < bb) (hw : 0 ≤ w)
    (hfac : 2 + w * (bb / 2) - F < 0) :
    0 ≤ ((bb / 2 - bb) * (2 / (bb / 2) + w) - F) *
      ((bb / 2 - 0) * (2 / (bb / 2) + w) - F) := by
  have h2q : (2:ℝ) / (bb / 2) * (bb / 2) = 2 :=
    div_mul_cancel₀ 2 (ne_of_gt (by linarith))
  have e1 : (bb / 2 - bb) * (2 / (bb / 2) + w) - F = -(2 + w * (bb / 2)) - F := by
    linear_combination (-1 : ℝ) * h2q
  have e2 : (bb / 2 - 0) * (2 / (bb / 2) + w) - F = 2 + w * (bb / 2) - F := by
    linear_combination h2q
  rw [e1, e2]
  have hwq : 0 ≤ w * (bb / 2) := mul_nonneg hw (by linarith)
  exact le_of_lt (mul_pos_of_neg_of_neg (by linarith) hfac)

/-- The slow-convergence disjunct `|1.9 f| > |last_delta df|` at a collapsed
bracket state. -/
lemma guard_exit (q F w c : ℝ) (hq : 0 < q) (hwq : w * q = c)
    (hc : 0 ≤ c) (hgt : 2 + c < 1.9 * F) :
    |1.9 * F| > |q * (2 / q + w)| := by
  have h2q : (2:ℝ) / q * q = 2 := div_mul_cancel₀ 2 (ne_of_gt hq)
  have e : q * (2 / q + w) = 2 + c := by linear_combination h2q + hwq
  rw [e, abs_of_pos (by linarith), abs_of_pos (by linarith)]
  exact hgt

set_option maxHeartbeats 2000000 in
/-- The exact solver run at `(4.5 ln 10, w₀)`: six bisections and a final
bisection step that hits the root `b/128` exactly (`f(b/128) = 0`). -/
lemma cex_solve : solve (4.5 * Real.log 10) cexW = Except.ok cexD := by
  have hlogtwo1 : (0.6931471803:ℝ) < Real.log 2 := Real.log_two_gt_d9
  have hlogtwo2 : Real.log 2 < 0.6931471808 := Real.log_two_lt_d9
  have hwpos : 0 < cexW := cexW_pos
  set bb := 4.5 * Real.log 10 with hbb
  have hb4 : (4:ℝ) < bb := by rw [hbb]; exact bb_gt_four
  have hbbpos : (0:ℝ) < bb := by linarith
  have hκ : cexW * bb = 1792 / 129 * Real.log 2 := by rw [hbb]; exact kappa_eq
  have hw1 : cexW * (bb / 2) = 896 / 129 * Real.log 2 := by
    linear_combination (1/2 : ℝ) * hκ
  have hw2 : cexW * (bb / 4) = 448 / 129 * Real.log 2 := by
    linear_combination (1/4 : ℝ) * hκ
  have hw3 : cexW * (bb / 8) = 224 / 129 * Real.log 2 := by
    linear_combination (1/8 : ℝ) * hκ
  have hw4 : cexW * (bb / 16) = 112 / 129 * Real.log 2 := by
    linear_combination (1/16 : ℝ) * hκ
  have hw5 : cexW * (bb / 32) = 56 / 129 * Real.log 2 := by
    linear_combination (1/32 : ℝ) * hκ
  have hw6 : cexW * (bb / 64) = 28 / 129 * Real.log 2 := by
    linear_combination (1/64 : ℝ) * hκ
  have hF1 : 2 * Real.log (bb / 2) + cexW * (bb / 2) + fB bb cexW
      = 2430 / 129 * Real.log 2 := by
    rw [Real.log_div (ne_of_gt hbbpos) (by norm_num)]
    unfold fB
    linear_combination (3/2 : ℝ) * hκ
  have hF2 : 2 * Real.log (bb / 4) + cexW * (bb / 4) + fB bb cexW
      = 1724 / 129 * Real.log 2 := by
    rw [show (4:ℝ) = 2 ^ (2:ℕ) by norm_num]
    rw [Real.log_div (ne_of_gt hbbpos) (by positivity), Real.log_pow]
    unfold fB
    push_cast
    linear_combination (5/4 : ℝ) * hκ
  have hF3 : 2 * Real.log (bb / 8) + cexW * (bb / 8) + fB bb cexW
      = 1242 / 129 * Real.log 2 := by
    rw [show (8:ℝ) = 2 ^ (3:ℕ) by norm_num]
    rw [Real.log_div (ne_of_gt hbbpos) (by positivity), Real.log_pow]
    unfold fB
    push_cast
    linear_combination (9/8 : ℝ) * hκ
  have hF4 : 2 * Real.log (bb / 16) + cexW * (bb / 16) + fB bb cexW
      = 872 / 129 * Real.log 2 := by
    rw [show (16:ℝ) = 2 ^ (4:ℕ) by norm_num]
    rw [Real.log_div (ne_of_gt hbbpos) (by positivity), Real.log_pow]
    unfold fB
    push_cast
    linear_combination (17/16 : ℝ) * hκ
  have hF5 : 2 * Real.log (bb / 32) + cexW * (bb / 32) + fB bb cexW
      = 558 / 129 * Real.log 2 := by
    rw [show (32:ℝ) = 2 ^ (5:ℕ) by norm_num]
    rw [Real.log_div (ne_of_gt hbbpos) (by positivity), Real.log_pow]
    unfold fB
    push_cast
    linear_combination (33/32 : ℝ) * hκ
  have hF6 : 2 * Real.log (bb / 64) + cexW * (bb / 64) + fB bb cexW
      = 272 / 129 * Real.log 2 := by
    rw [show (64:ℝ) = 2 ^ (6:ℕ) by norm_num]
    rw [Real.log_div (ne_of_gt hbbpos) (by positivity), Real.log_pow]
    unfold fB
    push_cast
    linear_combination (65/64 : ℝ) * hκ
  have hF7 : 2 * Real.log (bb / 128) + cexW * (bb / 128) + fB bb cexW = 0 := by
    rw [show (128:ℝ) = 2 ^ (7:ℕ) by norm_num]
    rw [Real.log_div (ne_of_gt hbbpos) (by positivity), Real.log_pow]
    unfold fB
    push_cast
    linear_combination (129/128 : ℝ) * hκ
  have hepsgen : ∀ q : ℝ, (1:ℝ)/50 ≤ q → ¬ |(q - 0) / 2| < 1e-12 := by
    intro q hq
    rw [abs_of_pos (by linarith)]
    refine not_lt.2 ?_
    have h : (1e-12:ℝ) ≤ 1 / 100 := by norm_num
    linarith
  have hinit : initState bb cexW =
      ⟨0, bb, bb / 2, bb - 0, 2430 / 129 * Real.log 2, none⟩ := by
    simp only [initState]
    rw [show (0 + bb) / 2 = bb / 2 by ring, hF1]
  have h1 : solveStep cexW (fB bb cexW)
      ⟨0, bb, bb / 2, bb - 0, 2430 / 129 * Real.log 2, none⟩ =
      Sum.inl ⟨0, bb / 2, bb / 2, bb / 2, 2430 / 129 * Real.log 2,
        some (2430 / 129 * Real.log 2)⟩ := by
    apply solveStep_init_bis
    · exact guard_shape_init bb _ cexW hbbpos (le_of_lt hwpos) (by linarith)
    · ring
    · exact ne_of_gt (by linarith)
    · exact hepsgen bb (by linarith)
    · exact hF1
    · exact ne_of_gt (by linarith)
    · exact not_lt.2 (by linarith)
  have h2 : solveStep cexW (fB bb cexW)
      ⟨0, bb / 2, bb / 2, bb / 2, 2430 / 129 * Real.log 2,
        some (2430 / 129 * Real.log 2)⟩ =
      Sum.inl ⟨0, bb / 4, bb / 4, bb / 4, 1724 / 129 * Real.log 2,
        some (1724 / 129 * Real.log 2)⟩ := by
    apply solveStep_halving
    · exact guard_shape (bb / 2) _ cexW (by linarith) (by linarith) (by linarith)
    · ring
    · exact ne_of_gt (by linarith)
    · exact hepsgen (bb / 2) (by linarith)
    · exact hF2
    · exact ne_of_gt (by linarith)
    · intro h; linarith
    · exact not_lt.2 (by linarith)
  have h3 : solveStep cexW (fB bb cexW)
      ⟨0, bb / 4, bb / 4, bb / 4, 1724 / 129 * Real.log 2,
        some (1724 / 129 * Real.log 2)⟩ =
      Sum.inl ⟨0, bb / 8, bb / 8, bb / 8, 1242 / 129 * Real.log 2,
        some (1242 / 129 * Real.log 2)⟩ := by
    apply solveStep_halving
    · exact guard_shape (bb / 4) _ cexW (by linarith) (by linarith) (by linarith)
    · ring
    · exact ne_of_gt (by linarith)
    · exact hepsgen (bb / 4) (by linarith)
    · exact hF3
    · exact ne_of_gt (by linarith)
    · intro h; linarith
    · exact not_lt.2 (by linarith)
  have h4 : solveStep cexW (fB bb cexW)
      ⟨0, bb / 8, bb / 8, bb / 8, 1242 / 129 * Real.log 2,
        some (1242 / 129 * Real.log 2)⟩ =
      Sum.inl ⟨0, bb / 16, bb / 16, bb / 16, 872 / 129 * Real.log 2,
        some (872 / 129 * Real.log 2)⟩ := by
    apply solveStep_halving
    · exact guard_shape (bb / 8) _ cexW (by linarith) (by linarith) (by linarith)
    · ring
    · exact ne_of_gt (by linarith)
    · exact hepsgen (bb / 8) (by linarith)
    · exact hF4
    · exact ne_of_gt (by linarith)
    · intro h; linarith
    · exact not_lt.2 (by linarith)
  have h5 : solveStep cexW (fB bb cexW)
      ⟨0, bb / 16, bb / 16, bb / 16, 872 / 129 * Real.log 2,
        some (872 / 129 * Real.log 2)⟩ =
      Sum.inl ⟨0, bb / 32, bb / 32, bb / 32, 558 / 129 * Real.log 2,
        some (558 / 129 * Real.log 2)⟩ := by
    apply solveStep_halving
    · exact guard_shape (bb / 16) _ cexW (by linarith) (by linarith) (by linarith)
    · ring
    · exact ne_of_gt (by linarith)
    · exact hepsgen (bb / 16) (by linarith)
    · exact hF5
    · exact ne_of_gt (by linarith)
    · intro h; linarith
    · exact not_lt.2 (by linarith)
  have h6 : solveStep cexW (fB bb cexW)
      ⟨0, bb / 32, bb / 32, bb / 32, 558 / 129 * Real.log 2,
        some (558 / 129 * Real.log 2)⟩ =
      Sum.inl ⟨0, bb / 64, bb / 64, bb / 64, 272 / 129 * Real.log 2,
        some (272 / 129 * Real.log 2)⟩ := by
    apply solveStep_halving
    · exact guard_shape (bb / 32) _ cexW (by linarith) (by linarith) (by linarith)
    · ring
    · exact ne_of_gt (by linarith)
    · exact hepsgen (bb / 32) (by linarith)
    · exact hF6
    · exact ne_of_gt (by linarith)
    · intro h; linarith
    · exact not_lt.2 (by linarith)
  have h7 : solveStep cexW (fB bb cexW)
      ⟨0, bb / 64, bb / 64, bb / 64, 272 / 129 * Real.log 2,
        some (272 / 129 * Real.log 2)⟩ = Sum.inr (bb / 128) := by
    apply solveStep_exit
    · exact guard_exit (bb / 64) _ cexW (28 / 129 * Real.log 2) (by linarith)
        hw6 (by linarith) (by linarith)
    · ring
    · exact ne_of_gt (by linarith)
    · exact hepsgen (bb / 64) (by linarith)
    · exact hF7
  have e1 := solveLoop_cons cexW (fB bb cexW) 18 _ _ h1
  have e2 := solveLoop_cons cexW (fB bb cexW) 17 _ _ h2
  have e3 := solveLoop_cons cexW (fB bb cexW) 16 _ _ h3
  have e4 := solveLoop_cons cexW (fB bb cexW) 15 _ _ h4
  have e5 := solveLoop_cons cexW (fB bb cexW) 14 _ _ h5
  have e6 := solveLoop_cons cexW (fB bb cexW) 13 _ _ h6
  have e7 := solveLoop_stop cexW (fB bb cexW) 12 _ _ h7
  unfold solve
  rw [if_neg (ne_of_gt hwpos), hinit]
  rw [show (19:ℕ) = 18 + 1 from rfl, e1]
  rw [show (18:ℕ) = 17 + 1 from rfl, e2]
  rw [show (17:ℕ) = 16 + 1 from rfl, e3]
  rw [show (16:ℕ) = 15 + 1 from rfl, e4]
  rw [show (15:ℕ) = 14 + 1 from rfl, e5]
  rw [show (14:ℕ) = 13 + 1 from rfl, e6]
  rw [show (13:ℕ) = 12 + 1 from rfl, e7]
  rw [show cexD = bb / 128 from by unfold cexD; rw [hbb]]

/-- The engineered resolution parameter is positive. -/
lemma cexRv_pos : 0 < cexRv := by
  unfold cexRv
  exact Real.rpow_pos_of_pos (by norm_num) _

/-- `log₁₀ cexRv = 9 w₀ - 4.5`. -/
lemma cex_logb : Real.logb 10 cexRv = 9 * cexW - 4.5 := by
  unfold cexRv
  exact Real.logb_rpow (by norm_num) (by norm_num)

/-- The constructor's normalized width at `(cexRv, 1)` is exactly `w₀`. -/
lemma cex_wparam : wParam cexRv 1 = cexW := by
  have hw0 := cexW_pos
  unfold wParam clampedW rawW
  rw [abs_of_pos cexRv_pos, show (1:ℝ) / cexRv = cexRv⁻¹ from one_div _,
    Real.logb_inv, cex_logb]
  rw [if_neg (not_lt.2 (by linarith))]
  ring

/-- The construction at `(cexR, 1)` succeeds and produces `cexT`. -/
lemma cex_mk : mkTranslator cexR 1 = some cexT := by
  have heff : effR cexR = cexRv := by
    unfold effR cexR
    rw [if_pos (by linarith [cexRv_pos] : -cexRv < 0), abs_neg,
      abs_of_pos cexRv_pos]
  unfold mkTranslator
  rw [heff, cex_wparam, cex_solve]
  rfl

/-- Closed form of the running `posCoef`: `a e^(b x1) b^(i+1)/(i+1)!`. -/
lemma taylorPos_closed (a b x1 : ℝ) :
    ∀ i : ℕ, taylorPos a b x1 i =
      a * Real.exp (b * x1) * b ^ (i + 1) / (i + 1).factorial := by
  intro i
  induction i with
  | zero => simp [taylorPos, Nat.factorial]
  | succ n ih =>
    rw [taylorPos, ih]
    have h1 : ((n + 1).factorial : ℝ) ≠ 0 :=
      Nat.cast_ne_zero.2 (Nat.factorial_ne_zero _)
    have h2 : ((n : ℝ) + 2) ≠ 0 := by positivity
    have hfac : ((n + 1 + 1).factorial : ℝ) = ((n : ℝ) + 2) * ((n + 1).factorial : ℝ) := by
      rw [Nat.factorial_succ]
      push_cast
      ring
    rw [hfac, pow_succ]
    field_simp
    ring

/-- Closed form of the running `negCoef`: `-c e^(-d x1) (-d)^(i+1)/(i+1)!`. -/
lemma taylorNeg_closed (c d x1 : ℝ) :
    ∀ i : ℕ, taylorNeg c d x1 i =
      -c / Real.exp (d * x1) * (-d) ^ (i + 1) / (i + 1).factorial := by
  intro i
  induction i with
  | zero => simp [taylorNeg, Nat.factorial]
  | succ n ih =>
    rw [taylorNeg, ih]
    have h1 : ((n + 1).factorial : ℝ) ≠ 0 :=
      Nat.cast_ne_zero.2 (Nat.factorial_ne_zero _)
    have h2 : ((n : ℝ) + 2) ≠ 0 := by positivity
    have hfac : ((n + 1 + 1).factorial : ℝ) = ((n : ℝ) + 2) * ((n + 1).factorial : ℝ) := by
      rw [Nat.factorial_succ]
      push_cast
      ring
    rw [hfac, pow_succ]
    field_simp
    ring

/-- Entry 1 of the Taylor table is forced to zero. -/
lemma taylorCoef_one (a b c d x1 : ℝ) : taylorCoef a b c d x1 1 = 0 := by
  simp [taylorCoef]

/-- Closed form of every Taylor table entry other than entry 1. -/
lemma taylorCoef_closed (a b c d x1 : ℝ) (i : ℕ) (h : ¬ i = 1) :
    taylorCoef a b c d x1 i =
      a * Real.exp (b * x1) * b ^ (i + 1) / (i + 1).factorial
      + -c / Real.exp (d * x1) * (-d) ^ (i + 1) / (i + 1).factorial := by
  unfold taylorCoef
  rw [if_neg h, taylorPos_closed, taylorNeg_closed]

/-- The Taylor table has 16 entries. -/
lemma taylorList_len (a b c d x1 : ℝ) : (taylorList a b c d x1).length = 16 := by
  unfold taylorList
  simp

/-- Reading the Taylor table at a valid index. -/
lemma taylorList_getD (a b c d x1 : ℝ) (i : ℕ) (h : i < 16) :
    (taylorList a b c d x1).getD i 0 = taylorCoef a b c d x1 i := by
  unfold taylorList
  rw [List.getD_eq_getElem?_getD, List.getElem?_map, List.getElem?_range h]
  rfl

/-- Reading the Taylor table at a valid index, `getElem?` form. -/
lemma taylorList_getElem (a b c d x1 : ℝ) (i : ℕ) (h : i < 16) :
    ((taylorList a b c d x1)[i]?).getD 0 = taylorCoef a b c d x1 i := by
  unfold taylorList
  rw [List.getElem?_map, List.getElem?_range h]
  rfl

set_option maxHeartbeats 1000000 in
/-- The Horner evaluation of `seriesBiexponential` equals the polynomial
`∑ taylor[i] (s - x1)^(i+1)` over the 16 table entries. -/
lemma series_closed (t : Translator) (a b c d x1 s : ℝ)
    (ht : t._taylor = taylorList a b c d x1) (hx : t._x1 = x1) :
    seriesBiexponential t s =
      (Finset.range 16).sum
        (fun i => taylorCoef a b c d x1 i * (s - x1) ^ (i + 1)) := by
  simp only [seriesBiexponential, ht, hx, taylorList_len]
  norm_num
  simp only [List.range_succ, List.range_zero, List.foldl_append,
    List.foldl_cons, List.foldl_nil]
  norm_num
  rw [taylorList_getElem a b c d x1 15 (by norm_num),
    taylorList_getElem a b c d x1 14 (by norm_num),
    taylorList_getElem a b c d x1 13 (by norm_num),
    taylorList_getElem a b c d x1 12 (by norm_num),
    taylorList_getElem a b c d x1 11 (by norm_num),
    taylorList_getElem a b c d x1 10 (by norm_num),
    taylorList_getElem a b c d x1 9 (by norm_num),
    taylorList_getElem a b c d x1 8 (by norm_num),
    taylorList_getElem a b c d x1 7 (by norm_num),
    taylorList_getElem a b c d x1 6 (by norm_num),
    taylorList_getElem a b c d x1 5 (by norm_num),
    taylorList_getElem a b c d x1 4 (by norm_num),
    taylorList_getElem a b c d x1 3 (by norm_num),
    taylorList_getElem a b c d x1 2 (by norm_num),
    taylorList_getElem a b c d x1 0 (by norm_num)]
  simp only [Finset.sum_range_succ, Finset.sum_range_zero]
  rw [taylorCoef_one]
  ring

set_option maxHeartbeats 2000000 in
/-- The Taylor polynomial rewritten against the degree-16 truncations of the
two exponential series: the table polynomial differs from
`P S₁ - Q S₂ - P + Q` only by the zeroed quadratic term. -/
lemma E_to_tail (a b c d x1 x : ℝ) :
    (Finset.range 16).sum (fun i => taylorCoef a b c d x1 i * x ^ (i + 1)) =
      a * Real.exp (b * x1) *
          (∑ m ∈ Finset.range 17, (b * x) ^ m / (m.factorial : ℝ))
        - c / Real.exp (d * x1) *
          (∑ m ∈ Finset.range 17, (-(d * x)) ^ m / (m.factorial : ℝ))
        - a * Real.exp (b * x1) + c / Real.exp (d * x1)
        - (a * Real.exp (b * x1) * b ^ 2 - c / Real.exp (d * x1) * d ^ 2)
          * x ^ 2 / 2 := by
  simp only [Finset.sum_range_succ, Finset.sum_range_zero]
  rw [taylorCoef_one,
    taylorCoef_closed a b c d x1 0 (by norm_num),
    taylorCoef_closed a b c d x1 2 (by norm_num),
    taylorCoef_closed a b c d x1 3 (by norm_num),
    taylorCoef_closed a b c d x1 4 (by norm_num),
    taylorCoef_closed a b c d x1 5 (by norm_num),
    taylorCoef_closed a b c d x1 6 (by norm_num),
    taylorCoef_closed a b c d x1 7 (by norm_num),
    taylorCoef_closed a b c d x1 8 (by norm_num),
    taylorCoef_closed a b c d x1 9 (by norm_num),
    taylorCoef_closed a b c d x1 10 (by norm_num),
    taylorCoef_closed a b c d x1 11 (by norm_num),
    taylorCoef_closed a b c d x1 12 (by norm_num),
    taylorCoef_closed a b c d x1 13 (by norm_num),
    taylorCoef_closed a b c d x1 14 (by norm_num),
    taylorCoef_closed a b c d x1 15 (by norm_num)]
  norm_num [Nat.factorial]
  ring

/-- `cexT`'s `x1` field is `w₀`. -/
lemma cexT_x1 : cexT._x1 = cexW := by
  simp only [cexT, mkFromD, mkBase]
  exact cex_wparam

/-- `cexT`'s Taylor cutoff is `1.25 w₀`. -/
lemma cexT_xTaylor : cexT._xTaylor = cexW + cexW / 4 := by
  simp only [cexT, mkFromD, mkBase]
  rw [cex_wparam]

/-- `cexT`'s `linearMax` is `1`. -/
lemma cexT_T : cexT._T = 1 := by
  simp only [cexT, mkFromD, mkBase]

/-- `cexT`'s Taylor table in terms of the named coefficients. -/
lemma cexT_taylor :
    cexT._taylor = taylorList cexA (4.5 * Real.log 10) cexC cexD cexW := by
  simp only [cexT, mkFromD, mkBase]
  rw [cex_wparam]
  unfold cexA cexC
  rfl

/-- The denominator of `a` is positive for the engineered construction
(pure exponential monotonicity: `0 < w₀ < 1` and `b, d > 0`). -/
lemma cex_denom_pos : 0 < denomA (2 * cexW) cexW (4.5 * Real.log 10) cexD := by
  have hw0 := cexW_pos
  have hw1 := cexW_lt_one
  have hb4 := bb_gt_four
  have hdpos : 0 < cexD := by unfold cexD; linarith
  unfold denomA mf_a
  have hca : 0 < c_a (2 * cexW) (4.5 * Real.log 10) cexD := by
    unfold c_a
    exact Real.exp_pos _
  have h1 : Real.exp (4.5 * Real.log 10 * cexW) < Real.exp (4.5 * Real.log 10) := by
    rw [Real.exp_lt_exp]
    nlinarith
  have h2 : c_a (2 * cexW) (4.5 * Real.log 10) cexD / Real.exp cexD <
      c_a (2 * cexW) (4.5 * Real.log 10) cexD / Real.exp (cexD * cexW) := by
    apply div_lt_div_of_pos_left hca (Real.exp_pos _)
    rw [Real.exp_lt_exp]
    nlinarith
  linarith

/-- The coefficient `a` of `cexT` is positive. -/
lemma cexA_pos : 0 < cexA := by
  unfold cexA coefA
  exact div_pos one_pos cex_denom_pos

/-- The coefficient `c` of `cexT` is positive. -/
lemma cexC_pos : 0 < cexC := by
  unfold cexC coefC
  refine mul_pos ?_ ?_
  · unfold c_a
    exact Real.exp_pos _
  · unfold coefA
    exact div_pos one_pos cex_denom_pos

/-- Folding rule for `cexP`. -/
lemma cexP_def : cexA * Real.exp (4.5 * Real.log 10 * cexW) = cexP := rfl

/-- Folding rule for `cexQ`. -/
lemma cexQ_def : cexC / Real.exp (cexD * cexW) = cexQ := rfl

/-- Since `d = b/128` exactly, `e^(w₀ (b + d)) = e^(14 ln 2) = 16384`. -/
lemma cex_exp14 : Real.exp (cexW * (4.5 * Real.log 10 + cexD)) = 16384 := by
  rw [show cexW * (4.5 * Real.log 10 + cexD) = ((14:ℕ):ℝ) * Real.log 2 from by
    unfold cexD; push_cast; linear_combination (129/128 : ℝ) * kappa_eq]
  rw [Real.exp_nat_mul, Real.exp_log (by norm_num : (0:ℝ) < 2)]
  norm_num

/-- The Logicle condition at the exact root: `Q = 16384 P`, equivalently
`Q d² = P b²` with `b = 128 d`. -/
lemma cexQ_eq : cexQ = 16384 * cexP := by
  unfold cexQ cexP cexC cexA
  unfold coefC c_a
  have hsplit : Real.exp (2 * cexW * (4.5 * Real.log 10 + cexD)) =
      Real.exp (cexD * cexW) * Real.exp (4.5 * Real.log 10 * cexW) *
        Real.exp (cexW * (4.5 * Real.log 10 + cexD)) := by
    rw [← Real.exp_add, ← Real.exp_add]
    congr 1
    ring
  rw [hsplit, cex_exp14]
  field_simp
  ring

/-- The closed-form coefficients evaluate the biexponential to exactly `T`
at scale `1` whenever the denominator of `a` is nonzero. -/
lemma coef_sum_eq (T x0 x1 b d : ℝ) (hden : denomA x0 x1 b d ≠ 0) :
    coefA T x0 x1 b d * Real.exp b + coefF T x0 x1 b d
      - coefC T x0 x1 b d / Real.exp d = T := by
  unfold coefC coefF
  unfold coefA
  have key :
      T / denomA x0 x1 b d * Real.exp b +
          -(mf_a x0 x1 b d) * (T / denomA x0 x1 b d) -
          c_a x0 b d * (T / denomA x0 x1 b d) / Real.exp d =
        T / denomA x0 x1 b d * denomA x0 x1 b d := by
    unfold denomA
    ring
  rw [key, div_mul_cancel₀ _ hden]

/-- The boundary identity `a e^b + f - c e^(-d) = 1` for `cexT`. -/
lemma cex_one : cexA * Real.exp (4.5 * Real.log 10)
    + coefF 1 (2 * cexW) cexW (4.5 * Real.log 10) cexD
    - cexC / Real.exp cexD = 1 := by
  unfold cexA cexC
  exact coef_sum_eq 1 (2 * cexW) cexW (4.5 * Real.log 10) cexD
    (ne_of_gt cex_denom_pos)

/-- The boundary identity in the Taylor-base variables:
`P e^(b X) - Q e^(-d X) - P + Q = 1` with `X = 1 - w₀`. -/
lemma cex_hone :
    cexP * Real.exp (4.5 * Real.log 10 * (1 - cexW))
      - cexQ * Real.exp (-(cexD * (1 - cexW))) - cexP + cexQ = 1 := by
  have h0 := cex_one
  have e1 : cexP * Real.exp (4.5 * Real.log 10 * (1 - cexW)) =
      cexA * Real.exp (4.5 * Real.log 10) := by
    unfold cexP
    rw [mul_assoc, ← Real.exp_add,
      show 4.5 * Real.log 10 * cexW + 4.5 * Real.log 10 * (1 - cexW) =
        4.5 * Real.log 10 from by ring]
  have e2 : cexQ * Real.exp (-(cexD * (1 - cexW))) =
      cexC / Real.exp cexD := by
    unfold cexQ
    rw [Real.exp_neg, division_def, mul_assoc, ← mul_inv, ← Real.exp_add,
      show cexD * cexW + cexD * (1 - cexW) = cexD from by ring, ← division_def]
  have e3 : coefF 1 (2 * cexW) cexW (4.5 * Real.log 10) cexD =
      -cexP + cexQ := by
    unfold cexP cexQ cexA cexC
    unfold coefF coefC mf_a c_a
    ring
  linarith [h0, e1, e2, e3]

set_option maxHeartbeats 2000000 in
/-- The truncated Taylor series of `cexT` at the scale maximum is strictly
below `linearMax = 1`: the dropped series tail is provably positive, because
the rising tail is at least `P (b X)^17/17!` while the falling tail is at
most `16384 P (d X)^17 · 18/(17! · 17)` and `b = 128 d`. -/
lemma cex_series_lt : seriesBiexponential cexT 1 < 1 := by
  have hw0 := cexW_pos
  have hw1 := cexW_lt_one
  have hw45 := cexW_gt
  have hb4 := bb_gt_four
  have hb11 := bb_lt_eleven
  have hdpos : 0 < cexD := by unfold cexD; linarith
  have hdlt : cexD < 11 / 128 := by unfold cexD; linarith
  have hPpos : 0 < cexP := by
    unfold cexP
    exact mul_pos cexA_pos (Real.exp_pos _)
  have hy : 0 < cexD * (1 - cexW) := mul_pos hdpos (by linarith)
  rw [series_closed cexT cexA (4.5 * Real.log 10) cexC cexD cexW 1
    cexT_taylor cexT_x1]
  rw [E_to_tail]
  rw [cexP_def, cexQ_def]
  have hg2 : cexP * (4.5 * Real.log 10) ^ 2 - cexQ * cexD ^ 2 = 0 := by
    rw [cexQ_eq, show 4.5 * Real.log 10 = 128 * cexD from by unfold cexD; ring]
    ring
  rw [hg2, zero_mul, zero_div, sub_zero]
  have hone := cex_hone
  rw [cexQ_eq] at hone ⊢
  rw [show 4.5 * Real.log 10 = 128 * cexD from by unfold cexD; ring] at hone ⊢
  -- lower bound for the rising exponential tail
  have hbX : (0:ℝ) ≤ 128 * cexD * (1 - cexW) := by nlinarith
  have h1 := Real.sum_le_exp_of_nonneg hbX 18
  have hsplit18 : ∑ i ∈ Finset.range 18,
        (128 * cexD * (1 - cexW)) ^ i / (i.factorial : ℝ) =
      (∑ i ∈ Finset.range 17,
        (128 * cexD * (1 - cexW)) ^ i / (i.factorial : ℝ)) +
      (128 * cexD * (1 - cexW)) ^ 17 / (Nat.factorial 17 : ℝ) :=
    Finset.sum_range_succ _ 17
  -- upper bound for the falling exponential tail
  have hdX1 : |-(cexD * (1 - cexW))| ≤ 1 := by
    rw [abs_neg, abs_of_pos hy]
    have h4 : cexD * (1 - cexW) ≤ cexD * 1 :=
      mul_le_mul_of_nonneg_left (by linarith) (le_of_lt hdpos)
    linarith
  have h2 := Real.exp_bound hdX1 (show 0 < 17 by norm_num)
  rw [abs_neg, abs_of_pos hy] at h2
  -- assemble
  suffices hkey : 0 <
      cexP * (Real.exp (128 * cexD * (1 - cexW)) -
        ∑ m ∈ Finset.range 17,
          (128 * cexD * (1 - cexW)) ^ m / (m.factorial : ℝ))
      - 16384 * cexP * (Real.exp (-(cexD * (1 - cexW))) -
        ∑ m ∈ Finset.range 17,
          (-(cexD * (1 - cexW))) ^ m / (m.factorial : ℝ)) by
    linarith [hone, hkey]
  have hgap1 : (128 * cexD * (1 - cexW)) ^ 17 / (Nat.factorial 17 : ℝ) ≤
      Real.exp (128 * cexD * (1 - cexW)) -
        ∑ m ∈ Finset.range 17,
          (128 * cexD * (1 - cexW)) ^ m / (m.factorial : ℝ) := by
    linarith [h1, hsplit18]
  have hb1 := mul_le_mul_of_nonneg_left hgap1 (le_of_lt hPpos)
  have hgap2 := le_trans (le_abs_self _) h2
  have hb2 := mul_le_mul_of_nonneg_left hgap2
    (show (0:ℝ) ≤ 16384 * cexP by linarith)
  have hscalar : (0:ℝ) < (128:ℝ) ^ 17 / (Nat.factorial 17 : ℝ) -
      16384 * (((17:ℕ).succ : ℝ) /
        ((Nat.factorial 17 : ℝ) * ((17:ℕ) : ℝ))) := by
    rw [show ((Nat.factorial 17 : ℕ) : ℝ) = 355687428096000 from by
      norm_num [Nat.factorial]]
    norm_num
  have hfinal : cexP * ((128 * cexD * (1 - cexW)) ^ 17 / (Nat.factorial 17 : ℝ))
      - 16384 * cexP * ((cexD * (1 - cexW)) ^ 17 *
        (((17:ℕ).succ : ℝ) / ((Nat.factorial 17 : ℝ) * ((17:ℕ) : ℝ)))) =
      cexP * (cexD * (1 - cexW)) ^ 17 *
        ((128:ℝ) ^ 17 / (Nat.factorial 17 : ℝ) -
          16384 * (((17:ℕ).succ : ℝ) /
            ((Nat.factorial 17 : ℝ) * ((17:ℕ) : ℝ)))) := by
    ring
  have hprod : 0 < cexP * (cexD * (1 - cexW)) ^ 17 *
      ((128:ℝ) ^ 17 / (Nat.factorial 17 : ℝ) -
        16384 * (((17:ℕ).succ : ℝ) /
          ((Nat.factorial 17 : ℝ) * ((17:ℕ) : ℝ)))) :=
    mul_pos (mul_pos hPpos (pow_pos hy 17)) hscalar
  linarith [hb1, hb2, hfinal, hprod]

/-- The inverse transform of `cexT` at the scale maximum falls in the Taylor
branch and returns strictly less than `linearMax`. -/
lemma cex_inverse_lt : inverse cexT 1 < 1 := by
  have hw1 := cexW_lt_one
  have hw45 := cexW_gt
  unfold inverse biexpCore
  rw [cexT_x1, cexT_xTaylor]
  rw [if_neg (not_lt.2 (le_of_lt hw1)),
    if_pos (by linarith : (1:ℝ) < cexW + cexW / 4)]
  exact cex_series_lt

/-- C1: REFUTED as frozen.  The construction at `(cexR, 1)` (raw input
`-10^(9 w₀ - 4.5)` with `linearMax = 1`, normalized width
`w₀ = 3584 ln 2 / (1161 ln 10) ≈ 0.929 > 4/5`) succeeds — the solver exits
with the exact root `b/128` — yet evaluating the inverse map at the
scale-domain maximum (scale coordinate `1`) lands strictly inside the
truncated Taylor region (`xTaylor = 1.25 w₀ > 1`), and the truncated series
returns strictly less than `linearMax = 1`.  So the inverse does not map the
scale maximum to `linearMax` exactly for every constructed transform; that
holds only when the maximum lies in the closed-form region (`w ≤ 4/5`), as
in the amended claim.  (In floating point the same phenomenon already
occurs at plain inputs such as `(-1000, 1)`.) -/
theorem claim_C1_counterexample :
    mkTranslator cexR 1 = some cexT ∧ cexT._T = 1 ∧
    inverse cexT 1 < 1 ∧ inverse cexT 1 ≠ cexT._T :=
  ⟨cex_mk, cexT_T, cex_inverse_lt, by
    rw [cexT_T]
    exact ne_of_lt cex_inverse_lt⟩
